import Mathlib

/-!
Verification of the snekomatic coordination core against its design notes.

The development shallowly embeds the core modules:
  - snekomatic/persistent.py : the recursive merge function unify and
    PDict.update over a persistent keyed store;
  - snekomatic/channels.py   : send_message and the messages subscriber
    over a durable append-only channel log;
  - snekomatic/db.py         : the retry_txn transactional retry engine
    and already_check_and_set;
  - snekomatic/util.py       : the Pulse coalesced wake-up primitive.

JSON-like values are modelled by the inductive type Value below.  Python
dictionaries compare equal independently of insertion order, so the
embedding uses the canonical representation of a dictionary as a
key-sorted association list; with that convention, Python equality of
values is definitional equality of the embedding.
-/

mutual

/-- JSON-style values stored in payloads, PDict entries and unify
arguments.  Objects are association lists of named fields (canonically
key-sorted, see the module comment); arrays and scalars unify only with
equal values, exactly as in the source. -/
inductive Value where
  | str (s : String)
  | num (n : Int)
  | bool (b : Bool)
  | null
  | arr (elts : ValueList)
  | obj (fields : FieldList)
deriving DecidableEq, Repr

/-- Elements of a JSON array. -/
inductive ValueList where
  | nil
  | cons (hd : Value) (tl : ValueList)
deriving DecidableEq, Repr

/-- Named fields of a JSON object, as an association list. -/
inductive FieldList where
  | nil
  | cons (key : String) (val : Value) (tl : FieldList)
deriving DecidableEq, Repr

end

/-- Discriminator for the isinstance(v, dict) tests in the source. -/
def Value.isObj : Value → Bool
  | .obj _ => true
  | _ => false

mutual

/-- Embeds unify from snekomatic/persistent.py: identical values unify
to themselves; two dictionaries unify key-wise (keys exclusive to one
side pass through, shared keys are recursively unified); any other pair
raises ValueError, modelled as Except.error. -/
def unify (v1 v2 : Value) : Except Unit Value :=
  if v1 = v2 then .ok v1
  else
    match v1, v2 with
    | .obj f1, .obj f2 => Except.map Value.obj (unifyFields f1 f2)
    | _, _ => .error ()
termination_by sizeOf v1 + sizeOf v2
decreasing_by all_goals (simp_wf; try omega)

/-- Key-wise merge of two (canonically key-sorted) field lists; the
list form of the dictionary branch of unify. -/
def unifyFields : FieldList → FieldList → Except Unit FieldList
  | .nil, f2 => .ok f2
  | f1, .nil => .ok f1
  | .cons k1 v1 t1, .cons k2 v2 t2 =>
    if k1 < k2 then
      Except.map (fun r => .cons k1 v1 r) (unifyFields t1 (.cons k2 v2 t2))
    else if k2 < k1 then
      Except.map (fun r => .cons k2 v2 r) (unifyFields (.cons k1 v1 t1) t2)
    else
      match unify v1 v2 with
      | .error e => .error e
      | .ok v => Except.map (fun r => .cons k1 v r) (unifyFields t1 t2)
termination_by f1 f2 => sizeOf f1 + sizeOf f2
decreasing_by all_goals (simp_wf; try omega)

end

/-- Left fold of unify over a list of fragments: the deep merge of the
fragments into an accumulator value. -/
def unifyAll : Value → List Value → Except Unit Value
  | acc, [] => .ok acc
  | acc, f :: rest =>
    match unify acc f with
    | .ok v => unifyAll v rest
    | .error e => .error e

/-- Persistent keyed store backing PDict (the pdict table of
snekomatic/db.py): a map from the (domain, item) key to the optional
stored JSONB value. -/
def PStore : Type := String × String → Option Value

/-- A database with no pdict rows. -/
def emptyPStore : PStore := fun _ => none

/-- Errors raised by PDict.update in snekomatic/persistent.py: a
TypeError for a non-dict fragment, and a ValueError (merge conflict)
when unify fails. -/
inductive UpdateError where
  | typeError
  | conflict
deriving DecidableEq, Repr

/-- Embeds PDict.update from snekomatic/persistent.py: a non-dict
fragment raises TypeError before any database access; otherwise the
existing row for (domain, item) is read, a missing row is initialised
with the fragment, and an existing value is replaced by
unify(existing, fragment), a ValueError from unify aborting the update
as a conflict. -/
def PDict.update (store : PStore) (domain item : String) (new_value : Value) :
    Except UpdateError PStore :=
  if ¬ new_value.isObj then .error .typeError
  else
    match store (domain, item) with
    | none => .ok (fun k => if k = (domain, item) then some new_value else store k)
    | some existing =>
      match unify existing new_value with
      | .ok v => .ok (fun k => if k = (domain, item) then some v else store k)
      | .error _ => .error .conflict

/-- The store visible after an update call returns or raises: on success
the committed store, on an exception the transaction is rolled back by
the session context manager and the store is unchanged. -/
def PDict.updateState (store : PStore) (domain item : String)
    (new_value : Value) : PStore :=
  match PDict.update store domain item new_value with
  | .ok s => s
  | .error _ => store

/-- Applying a sequence of update calls for one (domain, item) key,
stopping at the first failure. -/
def PDict.updateAll (store : PStore) (domain item : String) :
    List Value → Except UpdateError PStore
  | [] => .ok store
  | f :: rest =>
    match PDict.update store domain item f with
    | .ok s => PDict.updateAll s domain item rest
    | .error e => .error e

/-- Verdict reported by Postgres for one commit() call inside
retry_txn: success, an OperationalError whose cause is a
SerializationFailure with pgcode 40001, or any other OperationalError. -/
inductive CommitOutcome where
  | ok
  | serializationFailure
  | dbError
deriving DecidableEq, Repr

/-- One run of the caller-supplied block of a transaction: the block
either raises or completes, having staged a set of writes on its
session. -/
inductive BlockRun (W E : Type) where
  | raises (e : E)
  | completes (writes : W)
deriving DecidableEq, Repr

/-- Observable result of executing a transactional helper: a committed
set of writes, a propagated block exception after rollback, a
propagated commit-time database error, or the AssertionError retry_txn
raises when the caller exits the attempt loop early with no commit
observed.  Every variant records the number of attempts started. -/
inductive TxnResult (W E : Type) where
  | committed (writes : W) (attempts : Nat)
  | blockError (e : E) (attempts : Nat)
  | commitError (attempts : Nat)
  | earlyExitAssertion
deriving DecidableEq, Repr

/-- Attempt k of retry_txn is the last one started iff the block raises
there (the exception propagates after rollback) or the commit verdict
is anything other than a serialization failure (success breaks the
loop, another database error propagates).  A serialization failure
after a completed block closes the session and loops again. -/
def stopsAt {W E : Type} (block : Nat → BlockRun W E)
    (outcome : Nat → CommitOutcome) (k : Nat) : Bool :=
  match block k with
  | .raises _ => true
  | .completes _ => decide (outcome k ≠ .serializationFailure)

/-- Embeds retry_txn from snekomatic/db.py.  The block is re-invoked
from scratch on a fresh session for attempts 0, 1, 2, ... with no upper
bound; the schedule outcome gives the commit verdict Postgres returns
for each attempt that reaches commit().  The hypothesis h states that
the run terminates: some attempt stops the loop. -/
def retry_txn {W E : Type} (block : Nat → BlockRun W E)
    (outcome : Nat → CommitOutcome)
    (h : ∃ k, stopsAt block outcome k = true) : TxnResult W E :=
  match block (Nat.find h) with
  | .raises e => .blockError e (Nat.find h + 1)
  | .completes w =>
    match outcome (Nat.find h) with
    | .ok => .committed w (Nat.find h + 1)
    | .dbError => .commitError (Nat.find h + 1)
    | .serializationFailure => .commitError (Nat.find h + 1)

/-- Embeds a retry_txn call whose caller breaks out of the for loop
after receiving session j, the misuse warned about in the retry_txn
docstring.  If the run stops at some attempt before j, the caller never
reaches the break and the result is that of retry_txn; otherwise the
commit for attempt j is never attempted, the generator never observes a
commit, and the with block raises AssertionError. -/
def retry_txn_early_exit {W E : Type} (block : Nat → BlockRun W E)
    (outcome : Nat → CommitOutcome) (j : Nat) : TxnResult W E :=
  if h : ∃ k, k < j ∧ stopsAt block outcome k = true then
    retry_txn block outcome ⟨Nat.find h, (Nat.find_spec h).2⟩
  else .earlyExitAssertion

deriving instance DecidableEq for Except

/-- Modelled from the spec: the ChannelMessage model imported by
snekomatic/channels.py from snekomatic/db.py, absent from the revision
of db.py under src/.  A durable row keyed by
(domain, channel, message_id) with the payload (message), the final
flag, and an order column (the position) drawn from a single global
sequence shared by all channels.  The created timestamp column plays no
role in the semantics and is outside the embedding. -/
structure ChannelMessage where
  domain : String
  channel : String
  message_id : String
  message : Value
  final : Bool
  order : Int
deriving DecidableEq, Repr

/-- Modelled from the spec: the durable channel-log state.  log lists
the committed rows in commit order; nextOrder is the next value of the
global position sequence, assigned atomically with each insert at
commit time. -/
structure ChanDB where
  log : List ChannelMessage
  nextOrder : Int
deriving DecidableEq, Repr

/-- A database with no channel messages; the global sequence starts
at 0. -/
def emptyChanDB : ChanDB := ⟨[], 0⟩

/-- Errors raised by send_message: a conflicting payload for an
existing message_id, or a new message for a channel already marked
complete.  Both are ValueError in the source, with distinct messages. -/
inductive SendError where
  | conflict
  | closed
deriving DecidableEq, Repr

/-- Embeds send_message from snekomatic/channels.py: an existing row
with this message_id is compared against the new payload (identical is
a silent no-op, different raises the conflict ValueError); otherwise a
channel already holding a final message rejects the append as closed;
otherwise the row is inserted with the next global position. -/
def send_message (db : ChanDB) (domain channel message_id : String)
    (message : Value) (final : Bool) : Except SendError ChanDB :=
  match db.log.find? (fun m => m.domain == domain && m.channel == channel &&
      m.message_id == message_id) with
  | some existing =>
    if message ≠ existing.message ∨ final ≠ existing.final then
      .error .conflict
    else
      .ok db
  | none =>
    if db.log.any (fun m => m.domain == domain && m.channel == channel &&
        m.final) then
      .error .closed
    else
      .ok ⟨db.log ++ [⟨domain, channel, message_id, message, final,
        db.nextOrder⟩], db.nextOrder + 1⟩

/-- Well-formedness of the channel database maintained by
send_message: positions strictly increase along commit order, are all
below the next sequence value, and are nonnegative, and the sequence
value is nonnegative. -/
def ChanDBWF (db : ChanDB) : Prop :=
  List.Pairwise (fun m1 m2 => m1.order < m2.order) db.log ∧
  (∀ m ∈ db.log, m.order < db.nextOrder) ∧
  (∀ m ∈ db.log, 0 ≤ m.order) ∧
  0 ≤ db.nextOrder

/-- Embeds the storage query of one wake-up of messages() in
snekomatic/channels.py: all rows of (domain, channel) with order
greater than max_seen, ordered by order. -/
def chanQuery (log : List ChannelMessage) (domain channel : String)
    (max_seen : Int) : List ChannelMessage :=
  List.insertionSort (fun m1 m2 => m1.order ≤ m2.order)
    (log.filter (fun m => m.domain == domain && m.channel == channel &&
      decide (max_seen < m.order)))

/-- Embeds the delivery loop of messages(): yield each payload of the
batch in turn, return right after a final message, otherwise advance
the cursor to the order of the delivered message. -/
def deliverBatch : List ChannelMessage → Int → List Value × Int × Bool
  | [], max_seen => ([], max_seen, false)
  | m :: rest, max_seen =>
    if m.final then ([m.message], max_seen, true)
    else
      let r := deliverBatch rest m.order
      (m.message :: r.1, r.2.1, r.2.2)

/-- Private iteration state of one messages() generator: the max_seen
cursor, initially -1, and whether the generator has returned. -/
structure SubState where
  max_seen : Int
  done : Bool
deriving DecidableEq, Repr

/-- State of a freshly created subscriber. -/
def initialSub : SubState := ⟨-1, false⟩

/-- One wake-up of a messages() subscriber against a snapshot of the
durable log: a generator that already returned performs no further
read; otherwise the batch query runs from the cursor and the batch is
delivered in order. -/
def subStep (log : List ChannelMessage) (domain channel : String)
    (s : SubState) : List Value × SubState :=
  if s.done then ([], s)
  else
    let r := deliverBatch (chanQuery log domain channel s.max_seen) s.max_seen
    (r.1, ⟨r.2.1, r.2.2⟩)

/-- A subscriber run over successive snapshots of the durable log, one
per wake-up, concatenating the yielded payloads. -/
def subRun (domain channel : String) :
    List (List ChannelMessage) → SubState → List Value × SubState
  | [], s => ([], s)
  | log :: rest, s =>
    let r := subStep log domain channel s
    let r2 := subRun domain channel rest r.2
    (r.1 ++ r2.1, r2.2)

/-- The committed rows of one channel, in commit order. -/
def channelMessages (log : List ChannelMessage) (domain channel : String) :
    List ChannelMessage :=
  log.filter (fun m => m.domain == domain && m.channel == channel)

/-- The payloads a subscriber is meant to deliver: every payload of the
channel in position order, cut immediately after the first final
message. -/
def truncAtFinal : List ChannelMessage → List Value
  | [] => []
  | m :: rest => if m.final then [m.message] else m.message :: truncAtFinal rest

/-- The durable log only ever grows by appending committed rows. -/
def extendsLog (l1 l2 : List ChannelMessage) : Prop :=
  ∃ t, l2 = l1 ++ t

/-- Successive snapshots of the durable log, as seen by successive
wake-ups of one subscriber: each snapshot extends the previous one. -/
def LogChain : List (List ChannelMessage) → Prop
  | [] => True
  | [_] => True
  | l1 :: l2 :: rest => extendsLog l1 l2 ∧ LogChain (l2 :: rest)

/-- The last snapshot of a chain (the first argument when the chain is
empty). -/
def lastSnapshot : List ChannelMessage → List (List ChannelMessage) →
    List ChannelMessage
  | l0, [] => l0
  | _, l :: rest => lastSnapshot l rest

/-- Well-formedness of a durable log: positions strictly increase along
commit order and are nonnegative, as produced by the global position
sequence. -/
def ChanLogWF (log : List ChannelMessage) : Prop :=
  List.Pairwise (fun m1 m2 => m1.order < m2.order) log ∧
  ∀ m ∈ log, 0 ≤ m.order

/-- Cursor value after delivering a batch without finals: the order of
the last delivered message, or the start value for an empty batch. -/
def lastOrderD : List ChannelMessage → Int → Int
  | [], ms => ms
  | m :: rest, _ => lastOrderD rest m.order

/-- The already table of snekomatic/db.py: one flag row per
(domain, item); presence alone is the signal. -/
def AStore : Type := String × String → Bool

/-- A database with no flags set. -/
def emptyAStore : AStore := fun _ => false

/-- Embeds the transaction body of already_check_and_set from
snekomatic/db.py: query the flag row for (domain, item); if present the
result is True and nothing changes, otherwise the row is added and the
result is False. -/
def already_body (db : AStore) (domain item : String) : Bool × AStore :=
  if db (domain, item) then (true, db)
  else (false, fun k => if k = (domain, item) then true else db k)

/-- The retry_txn block of already_check_and_set: every attempt
re-runs the same query-then-insert body from scratch. -/
def already_block (db : AStore) (domain item : String) :
    Nat → BlockRun (Bool × AStore) Unit :=
  fun _ => .completes (already_body db domain item)

/-- Embeds already_check_and_set from snekomatic/db.py: the body runs
inside retry_txn, one fresh attempt per serialization conflict, with
the commit verdicts given by the outcome schedule. -/
def already_check_and_set (db : AStore) (domain item : String)
    (outcome : Nat → CommitOutcome)
    (h : ∃ k, stopsAt (already_block db domain item) outcome k = true) :
    TxnResult (Bool × AStore) Unit :=
  retry_txn (already_block db domain item) outcome h

/-- Modelled from the spec: open_session, imported by
snekomatic/channels.py and snekomatic/persistent.py from
snekomatic/db.py but absent from the revision of db.py under src/.  It
scopes one session over one with-block: the block body runs exactly
once, the work commits at scope exit, and any exception — including a
serialization failure reported at commit — propagates to the caller; a
plain context manager cannot re-run its block, so no retry is
possible. -/
def open_session_run {W E : Type} (body : BlockRun W E)
    (outcome : CommitOutcome) : TxnResult W E :=
  match body with
  | .raises e => .blockError e 1
  | .completes w =>
    match outcome with
    | .ok => .committed w 1
    | .serializationFailure => .commitError 1
    | .dbError => .commitError 1

/-- send_message executed in its open_session scope under a given
commit verdict. -/
def send_message_txn (db : ChanDB) (domain channel message_id : String)
    (message : Value) (final : Bool) (outcome : CommitOutcome) :
    TxnResult ChanDB SendError :=
  open_session_run
    (match send_message db domain channel message_id message final with
      | .ok db' => .completes db'
      | .error e => .raises e) outcome

/-- PDict.update executed in its open_session scope under a given
commit verdict. -/
def update_txn (store : PStore) (domain item : String) (frag : Value)
    (outcome : CommitOutcome) : TxnResult PStore UpdateError :=
  open_session_run
    (match PDict.update store domain item frag with
      | .ok s => .completes s
      | .error e => .raises e) outcome

/-- Embeds Pulse from snekomatic/util.py: the monotonically increasing
counter.  The resettable trio.Event wait handle only parks a subscriber
until the counter moves again and carries no further state. -/
structure Pulse where
  count : Int
deriving DecidableEq, Repr

/-- A freshly constructed Pulse: the counter starts at 0. -/
def Pulse.init : Pulse := ⟨0⟩

/-- Embeds Pulse.pulse: increment the counter, wake every waiter and
install a fresh wait handle. -/
def Pulse.pulse (p : Pulse) : Pulse := ⟨p.count + 1⟩

/-- N consecutive pulse() calls. -/
def Pulse.pulseN : Pulse → Nat → Pulse
  | p, 0 => p
  | p, n + 1 => (Pulse.pulseN p n).pulse

/-- Loop state of one Pulse.subscribe generator: the max_seen counter
value, initialized to -1. -/
structure PulseSub where
  max_seen : Int
deriving DecidableEq, Repr

/-- State of a fresh subscriber. -/
def PulseSub.init : PulseSub := ⟨-1⟩

/-- One pass of the subscribe() loop: if the counter advanced past
max_seen the subscriber records the counter and yields one tick;
otherwise it waits on the handle and yields nothing until the next
pulse() call. -/
def subCheck (p : Pulse) (s : PulseSub) : Bool × PulseSub :=
  if s.max_seen < p.count then (true, ⟨p.count⟩) else (false, s)

/-- Single-motive structural induction for FieldList (the mutual
recursor of the Value family has several motives, which the induction
tactic cannot use directly). -/
theorem FieldList.inductionOn {P : FieldList → Prop} (nil : P .nil)
    (cons : ∀ k v t, P t → P (.cons k v t)) : ∀ l, P l
  | .nil => nil
  | .cons k v t => cons k v t (FieldList.inductionOn nil cons t)

theorem unify_self (v : Value) : unify v v = .ok v := by
  rw [unify.eq_def, if_pos rfl]

theorem unifyFields_self (l : FieldList) : unifyFields l l = .ok l := by
  induction l using FieldList.inductionOn with
  | nil => rw [unifyFields]
  | cons k v tl ih =>
    rw [unifyFields]
    simp [unify_self, ih, Except.map]

theorem unify_obj_obj (f1 f2 : FieldList) :
    unify (.obj f1) (.obj f2) = Except.map Value.obj (unifyFields f1 f2) := by
  rw [unify.eq_def]
  by_cases h : Value.obj f1 = Value.obj f2
  · rw [if_pos h]
    obtain rfl : f1 = f2 := by injection h
    rw [unifyFields_self]
    rfl
  · rw [if_neg h]

theorem unify_non_obj {v1 v2 : Value}
    (h : v1.isObj = false ∨ v2.isObj = false) :
    unify v1 v2 = if v1 = v2 then .ok v1 else .error () := by
  rw [unify.eq_def]
  by_cases he : v1 = v2
  · rw [if_pos he, if_pos he]
  · rw [if_neg he, if_neg he]
    cases v1 <;> cases v2 <;> first | rfl | simp [Value.isObj] at h

theorem isObj_ex {v : Value} (h : v.isObj = true) : ∃ f, v = .obj f := by
  cases v <;> simp [Value.isObj] at h ⊢

theorem unify_flat_comm (v1 v2 : Value) :
    (if v1 = v2 then (Except.ok v1 : Except Unit Value) else .error ()) =
    (if v2 = v1 then .ok v2 else .error ()) := by
  by_cases h : v1 = v2
  · subst h; rfl
  · rw [if_neg h, if_neg (fun hh => h hh.symm)]

/-- Mutual size-indexed commutativity of unify at the value and the
field-list level. -/
theorem unify_comm_sized : ∀ n : Nat,
    (∀ v1 v2 : Value, sizeOf v1 + sizeOf v2 ≤ n → unify v1 v2 = unify v2 v1) ∧
    (∀ l1 l2 : FieldList, sizeOf l1 + sizeOf l2 ≤ n →
      unifyFields l1 l2 = unifyFields l2 l1) := by
  intro n
  induction n using Nat.strong_induction_on with
  | _ n ih =>
    constructor
    · intro v1 v2 hsz
      by_cases h1 : v1.isObj = true
      · by_cases h2 : v2.isObj = true
        · obtain ⟨f1, rfl⟩ := isObj_ex h1
          obtain ⟨f2, rfl⟩ := isObj_ex h2
          rw [unify_obj_obj, unify_obj_obj]
          have hlt : sizeOf f1 + sizeOf f2 < n := by simp at hsz; omega
          rw [(ih _ hlt).2 f1 f2 le_rfl]
        · rw [unify_non_obj (Or.inr (by simpa using h2)),
            unify_non_obj (Or.inl (by simpa using h2))]
          exact unify_flat_comm v1 v2
      · rw [unify_non_obj (Or.inl (by simpa using h1)),
          unify_non_obj (Or.inr (by simpa using h1))]
        exact unify_flat_comm v1 v2
    · intro l1 l2 hsz
      cases l1 with
      | nil =>
        cases l2 with
        | nil => rfl
        | cons k2 v2 t2 => rw [unifyFields, unifyFields]; simp
      | cons k1 v1 t1 =>
        cases l2 with
        | nil => rw [unifyFields, unifyFields]; simp
        | cons k2 v2 t2 =>
          have hlt1 : sizeOf t1 + sizeOf (FieldList.cons k2 v2 t2) < n := by
            simp at hsz ⊢; omega
          have hlt2 : sizeOf (FieldList.cons k1 v1 t1) + sizeOf t2 < n := by
            simp at hsz ⊢; omega
          rcases lt_trichotomy k1 k2 with hk | hk | hk
          · rw [unifyFields, if_pos hk, unifyFields,
              if_neg (lt_asymm hk), if_pos hk,
              (ih _ hlt1).2 t1 (FieldList.cons k2 v2 t2) le_rfl]
          · subst hk
            rw [unifyFields, if_neg (lt_irrefl k1), if_neg (lt_irrefl k1),
              unifyFields, if_neg (lt_irrefl k1), if_neg (lt_irrefl k1)]
            have hv : unify v1 v2 = unify v2 v1 :=
              (ih (sizeOf v1 + sizeOf v2) (by simp at hsz; omega)).1 v1 v2 le_rfl
            have ht : unifyFields t1 t2 = unifyFields t2 t1 :=
              (ih (sizeOf t1 + sizeOf t2) (by simp at hsz; omega)).2 t1 t2 le_rfl
            rw [hv, ht]
          · rw [unifyFields, if_neg (lt_asymm hk), if_pos hk, unifyFields,
              if_pos hk, (ih _ hlt2).2 (FieldList.cons k1 v1 t1) t2 le_rfl]

/-- Commutativity of unify: merging in either order gives the same
outcome (same merged value, or failure in both orders). -/
theorem unify_comm (v1 v2 : Value) : unify v1 v2 = unify v2 v1 :=
  (unify_comm_sized (sizeOf v1 + sizeOf v2)).1 v1 v2 le_rfl

theorem unifyFields_comm (l1 l2 : FieldList) :
    unifyFields l1 l2 = unifyFields l2 l1 :=
  (unify_comm_sized (sizeOf l1 + sizeOf l2)).2 l1 l2 le_rfl

theorem uf_nil_left (l : FieldList) : unifyFields .nil l = .ok l := by
  rw [unifyFields]

theorem uf_nil_right (l : FieldList) : unifyFields l .nil = .ok l := by
  cases l with
  | nil => rw [unifyFields]
  | cons k v t => rw [unifyFields]; simp

theorem uf_cons_lt {k1 k2 : String} (v1 : Value) (t1 : FieldList) (v2 : Value)
    (t2 : FieldList) (hk : k1 < k2) :
    unifyFields (.cons k1 v1 t1) (.cons k2 v2 t2) =
      Except.map (fun r => .cons k1 v1 r) (unifyFields t1 (.cons k2 v2 t2)) := by
  rw [unifyFields, if_pos hk]

theorem uf_cons_gt {k1 k2 : String} (v1 : Value) (t1 : FieldList) (v2 : Value)
    (t2 : FieldList) (hk : k2 < k1) :
    unifyFields (.cons k1 v1 t1) (.cons k2 v2 t2) =
      Except.map (fun r => .cons k2 v2 r) (unifyFields (.cons k1 v1 t1) t2) := by
  rw [unifyFields, if_neg (lt_asymm hk), if_pos hk]

theorem uf_cons_eq {k : String} (v1 : Value) (t1 : FieldList) (v2 : Value)
    (t2 : FieldList) :
    unifyFields (.cons k v1 t1) (.cons k v2 t2) =
      match unify v1 v2 with
      | .error e => .error e
      | .ok v => Except.map (fun r => .cons k v r) (unifyFields t1 t2) := by
  rw [unifyFields, if_neg (lt_irrefl k), if_neg (lt_irrefl k)]

theorem bind_map_cons (k : String) (v : Value) (e : Except Unit FieldList)
    (f : FieldList → Except Unit FieldList) :
    Except.bind (Except.map (fun r => FieldList.cons k v r) e) f =
      Except.bind e (fun r => f (.cons k v r)) := by
  cases e <;> rfl

theorem bind_map_obj_left (e : Except Unit FieldList) (l3 : FieldList) :
    Except.bind (Except.map Value.obj e) (fun x => unify x (Value.obj l3)) =
      Except.map Value.obj (Except.bind e (fun m => unifyFields m l3)) := by
  cases e with
  | error e => rfl
  | ok m => simp [Except.bind, Except.map, unify_obj_obj]

theorem bind_map_obj_right (e : Except Unit FieldList) (l1 : FieldList) :
    Except.bind (Except.map Value.obj e) (fun x => unify (Value.obj l1) x) =
      Except.map Value.obj (Except.bind e (fun m => unifyFields l1 m)) := by
  cases e with
  | error e => rfl
  | ok m => simp [Except.bind, Except.map, unify_obj_obj]

theorem unify_assoc_flat_mid {a b c : Value} (hb : b.isObj = false) :
    Except.bind (unify a b) (fun x => unify x c) =
      Except.bind (unify b c) (fun x => unify a x) := by
  rw [unify_non_obj (Or.inr hb), unify_non_obj (Or.inl hb)]
  by_cases hab : a = b
  · subst hab
    rw [if_pos rfl]
    by_cases hac : a = c
    · subst hac
      rw [if_pos rfl]
      rfl
    · rw [if_neg hac]
      simp only [Except.bind]
      rw [unify_non_obj (Or.inl hb), if_neg hac]
  · rw [if_neg hab]
    by_cases hbc : b = c
    · subst hbc
      rw [if_pos rfl]
      simp only [Except.bind]
      rw [unify_non_obj (Or.inr hb), if_neg hab]
    · rw [if_neg hbc]
      rfl

theorem unify_assoc_flat_left {a : Value} {fb : FieldList} {c : Value}
    (ha : a.isObj = false) :
    Except.bind (unify a (Value.obj fb)) (fun x => unify x c) =
      Except.bind (unify (Value.obj fb) c) (fun x => unify a x) := by
  have hab : a ≠ Value.obj fb := by
    intro h; rw [h] at ha; simp [Value.isObj] at ha
  rw [unify_non_obj (Or.inl ha), if_neg hab]
  by_cases hc : c.isObj = true
  · obtain ⟨fc, rfl⟩ := isObj_ex hc
    rw [unify_obj_obj]
    cases huf : unifyFields fb fc with
    | error e => cases e; rfl
    | ok m =>
      simp only [Except.bind, Except.map]
      rw [unify_non_obj (Or.inl ha),
        if_neg (show a ≠ Value.obj m by
          intro h; rw [h] at ha; simp [Value.isObj] at ha)]
  · have hc' : c.isObj = false := by simpa using hc
    have hbc : Value.obj fb ≠ c := by
      intro h; rw [← h] at hc'; simp [Value.isObj] at hc'
    rw [unify_non_obj (Or.inr hc'), if_neg hbc]
    rfl

theorem unify_assoc_flat_right {fa fb : FieldList} {c : Value}
    (hc : c.isObj = false) :
    Except.bind (unify (Value.obj fa) (Value.obj fb)) (fun x => unify x c) =
      Except.bind (unify (Value.obj fb) c) (fun x => unify (Value.obj fa) x) := by
  have hbc : Value.obj fb ≠ c := by
    intro h; rw [← h] at hc; simp [Value.isObj] at hc
  rw [unify_non_obj (Or.inr hc), if_neg hbc, unify_obj_obj]
  cases huf : unifyFields fa fb with
  | error e => cases e; rfl
  | ok m =>
    simp only [Except.bind, Except.map]
    rw [unify_non_obj (Or.inr hc),
      if_neg (show Value.obj m ≠ c by
        intro h; rw [← h] at hc; simp [Value.isObj] at hc)]

theorem bind_error_left {α β : Type} (f : α → Except Unit β) :
    Except.bind (.error ()) f = .error () := rfl

theorem bind_ok_left {α β : Type} (a : α) (f : α → Except Unit β) :
    Except.bind (.ok a) f = f a := rfl

theorem bind_ok_fun {α : Type} (e : Except Unit α) :
    Except.bind e (fun a => Except.ok a) = e := by
  cases e <;> rfl

theorem uf_cons_eq_error {k : String} (v1 : Value) (t1 : FieldList) (v2 : Value)
    (t2 : FieldList) (h : unify v1 v2 = .error ()) :
    unifyFields (.cons k v1 t1) (.cons k v2 t2) = .error () := by
  rw [uf_cons_eq, h]

theorem uf_cons_eq_ok {k : String} (v1 : Value) (t1 : FieldList) (v2 : Value)
    (t2 : FieldList) (w : Value) (h : unify v1 v2 = .ok w) :
    unifyFields (.cons k v1 t1) (.cons k v2 t2) =
      Except.map (fun r => .cons k w r) (unifyFields t1 t2) := by
  rw [uf_cons_eq, h]

/-- Mutual size-indexed associativity of unify, in strong (Kleisli) form:
merging three values left-to-right and right-to-left agree, including on
which side fails. -/
theorem unify_assoc_sized : ∀ n : Nat,
    (∀ a b c : Value, sizeOf a + sizeOf b + sizeOf c ≤ n →
      Except.bind (unify a b) (fun x => unify x c) =
        Except.bind (unify b c) (fun x => unify a x)) ∧
    (∀ l1 l2 l3 : FieldList, sizeOf l1 + sizeOf l2 + sizeOf l3 ≤ n →
      Except.bind (unifyFields l1 l2) (fun m => unifyFields m l3) =
        Except.bind (unifyFields l2 l3) (fun m => unifyFields l1 m)) := by
  intro n
  induction n using Nat.strong_induction_on with
  | _ n ih =>
    constructor
    · intro a b c hsz
      by_cases hb : b.isObj = true
      · obtain ⟨fb, rfl⟩ := isObj_ex hb
        by_cases ha : a.isObj = true
        · obtain ⟨fa, rfl⟩ := isObj_ex ha
          by_cases hc : c.isObj = true
          · obtain ⟨fc, rfl⟩ := isObj_ex hc
            rw [unify_obj_obj, unify_obj_obj, bind_map_obj_left,
              bind_map_obj_right]
            have hlt : sizeOf fa + sizeOf fb + sizeOf fc < n := by
              simp at hsz; omega
            rw [(ih _ hlt).2 fa fb fc le_rfl]
          · exact unify_assoc_flat_right (by simpa using hc)
        · exact unify_assoc_flat_left (by simpa using ha)
      · exact unify_assoc_flat_mid (by simpa using hb)
    · intro l1 l2 l3 hsz
      have IHL : ∀ a b c : FieldList,
          sizeOf a + sizeOf b + sizeOf c < n →
          Except.bind (unifyFields a b) (fun m => unifyFields m c) =
            Except.bind (unifyFields b c) (fun m => unifyFields a m) :=
        fun a b c h => (ih _ h).2 a b c le_rfl
      have IHV : ∀ a b c : Value,
          sizeOf a + sizeOf b + sizeOf c < n →
          Except.bind (unify a b) (fun x => unify x c) =
            Except.bind (unify b c) (fun x => unify a x) :=
        fun a b c h => (ih _ h).1 a b c le_rfl
      cases l1 with
      | nil =>
        rw [uf_nil_left, bind_ok_left,
          show (fun m => unifyFields FieldList.nil m) =
            fun m : FieldList => Except.ok m from funext uf_nil_left,
          bind_ok_fun]
      | cons k1 v1 t1 =>
        cases l2 with
        | nil => rw [uf_nil_right, uf_nil_left, bind_ok_left, bind_ok_left]
        | cons k2 v2 t2 =>
          cases l3 with
          | nil =>
            rw [uf_nil_right, bind_ok_left,
              show (fun m => unifyFields m FieldList.nil) =
                fun m : FieldList => Except.ok m from funext uf_nil_right,
              bind_ok_fun]
          | cons k3 v3 t3 =>
            rcases lt_trichotomy k1 k2 with h12 | h12 | h12
            · rcases lt_trichotomy k2 k3 with h23 | h23 | h23
              · -- k1 < k2 < k3
                have h13 : k1 < k3 := lt_trans h12 h23
                have IHa := IHL t1 (.cons k2 v2 t2) (.cons k3 v3 t3)
                  (by simp only [FieldList.cons.sizeOf_spec] at hsz ⊢; omega)
                rw [uf_cons_lt v1 t1 v2 t2 h12, uf_cons_lt v2 t2 v3 t3 h23,
                  bind_map_cons, bind_map_cons]
                cases e1 : unifyFields t1 (.cons k2 v2 t2) with
                | error e =>
                  cases e
                  rw [e1] at IHa
                  simp only [bind_error_left] at IHa ⊢
                  rw [uf_cons_lt v2 t2 v3 t3 h23, bind_map_cons] at IHa
                  cases e2 : unifyFields t2 (.cons k3 v3 t3) with
                  | error e' => cases e'; simp only [bind_error_left]
                  | ok m2 =>
                    rw [e2] at IHa
                    simp only [bind_ok_left] at IHa ⊢
                    rw [uf_cons_lt v1 t1 v2 m2 h12, ← IHa]
                    rfl
                | ok m =>
                  rw [e1] at IHa
                  simp only [bind_ok_left] at IHa ⊢
                  rw [uf_cons_lt v2 t2 v3 t3 h23, bind_map_cons] at IHa
                  rw [uf_cons_lt v1 m v3 t3 h13, IHa]
                  cases e2 : unifyFields t2 (.cons k3 v3 t3) with
                  | error e' => cases e'; rfl
                  | ok m2 =>
                    simp only [bind_ok_left]
                    rw [uf_cons_lt v1 t1 v2 m2 h12]
              · -- k1 < k2 = k3
                subst h23
                have IHa := IHL t1 (.cons k2 v2 t2) (.cons k2 v3 t3)
                  (by simp only [FieldList.cons.sizeOf_spec] at hsz ⊢; omega)
                rw [uf_cons_lt v1 t1 v2 t2 h12, bind_map_cons]
                cases e1 : unifyFields t1 (.cons k2 v2 t2) with
                | error e =>
                  cases e
                  rw [e1] at IHa
                  simp only [bind_error_left] at IHa ⊢
                  cases e23 : unify v2 v3 with
                  | error e' =>
                    cases e'
                    rw [uf_cons_eq_error v2 t2 v3 t3 e23]
                    simp only [bind_error_left]
                  | ok w =>
                    rw [uf_cons_eq_ok v2 t2 v3 t3 w e23, bind_map_cons] at IHa ⊢
                    cases e2 : unifyFields t2 t3 with
                    | error e' => cases e'; simp only [bind_error_left]
                    | ok m2 =>
                      rw [e2] at IHa
                      simp only [bind_ok_left] at IHa ⊢
                      rw [uf_cons_lt v1 t1 w m2 h12, ← IHa]
                      rfl
                | ok m =>
                  rw [e1] at IHa
                  simp only [bind_ok_left] at IHa ⊢
                  rw [uf_cons_lt v1 m v3 t3 h12, IHa]
                  cases e23 : unify v2 v3 with
                  | error e' =>
                    cases e'
                    rw [uf_cons_eq_error v2 t2 v3 t3 e23]
                    rfl
                  | ok w =>
                    rw [uf_cons_eq_ok v2 t2 v3 t3 w e23, bind_map_cons,
                      bind_map_cons]
                    cases e2 : unifyFields t2 t3 with
                    | error e' => cases e'; rfl
                    | ok m2 =>
                      simp only [bind_ok_left]
                      rw [uf_cons_lt v1 t1 w m2 h12]
              · -- k1 < k2, k3 < k2
                rcases lt_trichotomy k1 k3 with h13 | h13 | h13
                · -- k1 < k3 < k2
                  have IHa := IHL t1 (.cons k2 v2 t2) (.cons k3 v3 t3)
                    (by simp only [FieldList.cons.sizeOf_spec] at hsz ⊢; omega)
                  rw [uf_cons_lt v1 t1 v2 t2 h12, bind_map_cons,
                    uf_cons_gt v2 t2 v3 t3 h23, bind_map_cons]
                  cases e1 : unifyFields t1 (.cons k2 v2 t2) with
                  | error e =>
                    cases e
                    rw [e1] at IHa
                    simp only [bind_error_left] at IHa ⊢
                    rw [uf_cons_gt v2 t2 v3 t3 h23, bind_map_cons] at IHa
                    cases e2 : unifyFields (.cons k2 v2 t2) t3 with
                    | error e' => cases e'; simp only [bind_error_left]
                    | ok m2 =>
                      rw [e2] at IHa
                      simp only [bind_ok_left] at IHa ⊢
                      rw [uf_cons_lt v1 t1 v3 m2 h13, ← IHa]
                      rfl
                  | ok m =>
                    rw [e1] at IHa
                    simp only [bind_ok_left] at IHa ⊢
                    rw [uf_cons_gt v2 t2 v3 t3 h23, bind_map_cons] at IHa
                    rw [uf_cons_lt v1 m v3 t3 h13, IHa]
                    cases e2 : unifyFields (.cons k2 v2 t2) t3 with
                    | error e' => cases e'; rfl
                    | ok m2 =>
                      simp only [bind_ok_left]
                      rw [uf_cons_lt v1 t1 v3 m2 h13]
                · -- k1 = k3 < k2
                  subst h13
                  rw [uf_cons_lt v1 t1 v2 t2 h12, bind_map_cons,
                    uf_cons_gt v2 t2 v3 t3 h23, bind_map_cons]
                  cases e13 : unify v1 v3 with
                  | error e =>
                    cases e
                    cases e1 : unifyFields t1 (.cons k2 v2 t2) with
                    | error e' =>
                      cases e'
                      simp only [bind_error_left]
                      cases e2 : unifyFields (.cons k2 v2 t2) t3 with
                      | error e'' => cases e''; simp only [bind_error_left]
                      | ok m2 =>
                        simp only [bind_ok_left]
                        rw [uf_cons_eq_error v1 t1 v3 m2 e13]
                    | ok m =>
                      simp only [bind_ok_left]
                      rw [uf_cons_eq_error v1 m v3 t3 e13]
                      cases e2 : unifyFields (.cons k2 v2 t2) t3 with
                      | error e'' => cases e''; simp only [bind_error_left]
                      | ok m2 =>
                        simp only [bind_ok_left]
                        rw [uf_cons_eq_error v1 t1 v3 m2 e13]
                  | ok w =>
                    have IHd := IHL t1 (.cons k2 v2 t2) t3
                      (by simp only [FieldList.cons.sizeOf_spec] at hsz ⊢; omega)
                    cases e1 : unifyFields t1 (.cons k2 v2 t2) with
                    | error e' =>
                      cases e'
                      rw [e1] at IHd
                      simp only [bind_error_left] at IHd ⊢
                      cases e2 : unifyFields (.cons k2 v2 t2) t3 with
                      | error e'' => cases e''; simp only [bind_error_left]
                      | ok m2 =>
                        rw [e2] at IHd
                        simp only [bind_ok_left] at IHd ⊢
                        rw [uf_cons_eq_ok v1 t1 v3 m2 w e13, ← IHd]
                        rfl
                    | ok m =>
                      rw [e1] at IHd
                      simp only [bind_ok_left] at IHd ⊢
                      rw [uf_cons_eq_ok v1 m v3 t3 w e13, IHd]
                      cases e2 : unifyFields (.cons k2 v2 t2) t3 with
                      | error e' => cases e'; rfl
                      | ok m2 =>
                        simp only [bind_ok_left]
                        rw [uf_cons_eq_ok v1 t1 v3 m2 w e13]
                · -- k3 < k1 < k2
                  have IHc := IHL (.cons k1 v1 t1) (.cons k2 v2 t2) t3
                    (by simp only [FieldList.cons.sizeOf_spec] at hsz ⊢; omega)
                  rw [uf_cons_lt v1 t1 v2 t2 h12, bind_map_cons,
                    uf_cons_gt v2 t2 v3 t3 h23, bind_map_cons]
                  rw [uf_cons_lt v1 t1 v2 t2 h12, bind_map_cons] at IHc
                  cases e1 : unifyFields t1 (.cons k2 v2 t2) with
                  | error e =>
                    cases e
                    rw [e1] at IHc
                    simp only [bind_error_left] at IHc ⊢
                    cases e2 : unifyFields (.cons k2 v2 t2) t3 with
                    | error e' => cases e'; simp only [bind_error_left]
                    | ok m2 =>
                      rw [e2] at IHc
                      simp only [bind_ok_left] at IHc ⊢
                      rw [uf_cons_gt v1 t1 v3 m2 h13, ← IHc]
                      rfl
                  | ok m =>
                    rw [e1] at IHc
                    simp only [bind_ok_left] at IHc ⊢
                    rw [uf_cons_gt v1 m v3 t3 h13, IHc]
                    cases e2 : unifyFields (.cons k2 v2 t2) t3 with
                    | error e' => cases e'; rfl
                    | ok m2 =>
                      simp only [bind_ok_left]
                      rw [uf_cons_gt v1 t1 v3 m2 h13]
            · -- k1 = k2
              subst h12
              rcases lt_trichotomy k1 k3 with h23 | h23 | h23
              · -- k1 = k2 < k3
                cases e12 : unify v1 v2 with
                | error e =>
                  cases e
                  rw [uf_cons_eq_error v1 t1 v2 t2 e12]
                  simp only [bind_error_left]
                  rw [uf_cons_lt v2 t2 v3 t3 h23, bind_map_cons]
                  cases e2 : unifyFields t2 (.cons k3 v3 t3) with
                  | error e' => cases e'; simp only [bind_error_left]
                  | ok m2 =>
                    simp only [bind_ok_left]
                    rw [uf_cons_eq_error v1 t1 v2 m2 e12]
                | ok w =>
                  have IHb := IHL t1 t2 (.cons k3 v3 t3)
                    (by simp only [FieldList.cons.sizeOf_spec] at hsz ⊢; omega)
                  rw [uf_cons_eq_ok v1 t1 v2 t2 w e12, bind_map_cons,
                    uf_cons_lt v2 t2 v3 t3 h23, bind_map_cons]
                  cases e1 : unifyFields t1 t2 with
                  | error e' =>
                    cases e'
                    rw [e1] at IHb
                    simp only [bind_error_left] at IHb ⊢
                    cases e2 : unifyFields t2 (.cons k3 v3 t3) with
                    | error e'' => cases e''; simp only [bind_error_left]
                    | ok m2 =>
                      rw [e2] at IHb
                      simp only [bind_ok_left] at IHb ⊢
                      rw [uf_cons_eq_ok v1 t1 v2 m2 w e12, ← IHb]
                      rfl
                  | ok m1 =>
                    rw [e1] at IHb
                    simp only [bind_ok_left] at IHb ⊢
                    rw [uf_cons_lt w m1 v3 t3 h23, IHb]
                    cases e2 : unifyFields t2 (.cons k3 v3 t3) with
                    | error e'' => cases e''; rfl
                    | ok m2 =>
                      simp only [bind_ok_left]
                      rw [uf_cons_eq_ok v1 t1 v2 m2 w e12]
              · -- k1 = k2 = k3
                subst h23
                have Hv := IHV v1 v2 v3
                  (by simp only [FieldList.cons.sizeOf_spec] at hsz; omega)
                have Ht := IHL t1 t2 t3
                  (by simp only [FieldList.cons.sizeOf_spec] at hsz; omega)
                cases e12 : unify v1 v2 with
                | error e =>
                  cases e
                  rw [e12] at Hv
                  simp only [bind_error_left] at Hv
                  rw [uf_cons_eq_error v1 t1 v2 t2 e12]
                  simp only [bind_error_left]
                  cases e23 : unify v2 v3 with
                  | error e' =>
                    cases e'
                    rw [uf_cons_eq_error v2 t2 v3 t3 e23]
                    simp only [bind_error_left]
                  | ok w =>
                    rw [e23] at Hv
                    simp only [bind_ok_left] at Hv
                    rw [uf_cons_eq_ok v2 t2 v3 t3 w e23, bind_map_cons]
                    cases e2 : unifyFields t2 t3 with
                    | error e' => cases e'; simp only [bind_error_left]
                    | ok m2 =>
                      simp only [bind_ok_left]
                      rw [uf_cons_eq_error v1 t1 w m2 Hv.symm]
                | ok w12 =>
                  rw [e12] at Hv
                  simp only [bind_ok_left] at Hv
                  rw [uf_cons_eq_ok v1 t1 v2 t2 w12 e12, bind_map_cons]
                  cases e23 : unify v2 v3 with
                  | error e' =>
                    cases e'
                    rw [e23] at Hv
                    simp only [bind_error_left] at Hv
                    rw [uf_cons_eq_error v2 t2 v3 t3 e23]
                    simp only [bind_error_left]
                    cases e1 : unifyFields t1 t2 with
                    | error e'' => cases e''; simp only [bind_error_left]
                    | ok m1 =>
                      simp only [bind_ok_left]
                      rw [uf_cons_eq_error w12 m1 v3 t3 Hv]
                  | ok w23 =>
                    rw [e23] at Hv
                    simp only [bind_ok_left] at Hv
                    rw [uf_cons_eq_ok v2 t2 v3 t3 w23 e23, bind_map_cons]
                    cases e1 : unifyFields t1 t2 with
                    | error e'' =>
                      cases e''
                      rw [e1] at Ht
                      simp only [bind_error_left] at Ht ⊢
                      cases e2 : unifyFields t2 t3 with
                      | error e3 => cases e3; simp only [bind_error_left]
                      | ok m2 =>
                        rw [e2] at Ht
                        simp only [bind_ok_left] at Ht ⊢
                        cases e3 : unify v1 w23 with
                        | error e4 =>
                          cases e4
                          rw [uf_cons_eq_error v1 t1 w23 m2 e3]
                        | ok wz =>
                          rw [uf_cons_eq_ok v1 t1 w23 m2 wz e3, ← Ht]
                          rfl
                    | ok m1 =>
                      rw [e1] at Ht
                      simp only [bind_ok_left] at Ht ⊢
                      cases e2 : unifyFields t2 t3 with
                      | error e3 =>
                        cases e3
                        rw [e2] at Ht
                        simp only [bind_error_left] at Ht ⊢
                        cases e4 : unify w12 v3 with
                        | error e5 =>
                          cases e5
                          rw [uf_cons_eq_error w12 m1 v3 t3 e4]
                        | ok wz =>
                          rw [uf_cons_eq_ok w12 m1 v3 t3 wz e4, Ht]
                          rfl
                      | ok m2 =>
                        rw [e2] at Ht
                        simp only [bind_ok_left] at Ht ⊢
                        cases e4 : unify w12 v3 with
                        | error e5 =>
                          cases e5
                          rw [uf_cons_eq_error w12 m1 v3 t3 e4,
                            uf_cons_eq_error v1 t1 w23 m2 (Hv.symm.trans e4)]
                        | ok wz =>
                          rw [uf_cons_eq_ok w12 m1 v3 t3 wz e4,
                            uf_cons_eq_ok v1 t1 w23 m2 wz (Hv.symm.trans e4),
                            Ht]
              · -- k3 < k1 = k2
                have IHh := IHL (.cons k1 v1 t1) (.cons k1 v2 t2) t3
                  (by simp only [FieldList.cons.sizeOf_spec] at hsz ⊢; omega)
                rw [uf_cons_gt v2 t2 v3 t3 h23, bind_map_cons]
                cases e12 : unify v1 v2 with
                | error e =>
                  cases e
                  rw [uf_cons_eq_error v1 t1 v2 t2 e12]
                  simp only [bind_error_left]
                  rw [uf_cons_eq_error v1 t1 v2 t2 e12] at IHh
                  simp only [bind_error_left] at IHh
                  cases e2 : unifyFields (.cons k1 v2 t2) t3 with
                  | error e' => cases e'; simp only [bind_error_left]
                  | ok m2 =>
                    rw [e2] at IHh
                    simp only [bind_ok_left] at IHh ⊢
                    rw [uf_cons_gt v1 t1 v3 m2 h23, ← IHh]
                    rfl
                | ok w =>
                  rw [uf_cons_eq_ok v1 t1 v2 t2 w e12, bind_map_cons]
                  rw [uf_cons_eq_ok v1 t1 v2 t2 w e12, bind_map_cons] at IHh
                  cases e1 : unifyFields t1 t2 with
                  | error e' =>
                    cases e'
                    rw [e1] at IHh
                    simp only [bind_error_left] at IHh ⊢
                    cases e2 : unifyFields (.cons k1 v2 t2) t3 with
                    | error e'' => cases e''; simp only [bind_error_left]
                    | ok m2 =>
                      rw [e2] at IHh
                      simp only [bind_ok_left] at IHh ⊢
                      rw [uf_cons_gt v1 t1 v3 m2 h23, ← IHh]
                      rfl
                  | ok m =>
                    rw [e1] at IHh
                    simp only [bind_ok_left] at IHh ⊢
                    rw [uf_cons_gt w m v3 t3 h23, IHh]
                    cases e2 : unifyFields (.cons k1 v2 t2) t3 with
                    | error e'' => cases e''; rfl
                    | ok m2 =>
                      simp only [bind_ok_left]
                      rw [uf_cons_gt v1 t1 v3 m2 h23]
            · -- k2 < k1
              rcases lt_trichotomy k2 k3 with h23 | h23 | h23
              · -- k2 < k1, k2 < k3
                have IHe := IHL (.cons k1 v1 t1) t2 (.cons k3 v3 t3)
                  (by simp only [FieldList.cons.sizeOf_spec] at hsz ⊢; omega)
                rw [uf_cons_gt v1 t1 v2 t2 h12, bind_map_cons,
                  uf_cons_lt v2 t2 v3 t3 h23, bind_map_cons]
                cases e1 : unifyFields (.cons k1 v1 t1) t2 with
                | error e =>
                  cases e
                  rw [e1] at IHe
                  simp only [bind_error_left] at IHe ⊢
                  cases e2 : unifyFields t2 (.cons k3 v3 t3) with
                  | error e' => cases e'; simp only [bind_error_left]
                  | ok m2 =>
                    rw [e2] at IHe
                    simp only [bind_ok_left] at IHe ⊢
                    rw [uf_cons_gt v1 t1 v2 m2 h12, ← IHe]
                    rfl
                | ok m =>
                  rw [e1] at IHe
                  simp only [bind_ok_left] at IHe ⊢
                  rw [uf_cons_lt v2 m v3 t3 h23, IHe]
                  cases e2 : unifyFields t2 (.cons k3 v3 t3) with
                  | error e' => cases e'; rfl
                  | ok m2 =>
                    simp only [bind_ok_left]
                    rw [uf_cons_gt v1 t1 v2 m2 h12]
              · -- k2 < k1, k2 = k3
                subst h23
                rw [uf_cons_gt v1 t1 v2 t2 h12, bind_map_cons]
                cases e23 : unify v2 v3 with
                | error e =>
                  cases e
                  rw [uf_cons_eq_error v2 t2 v3 t3 e23]
                  simp only [bind_error_left]
                  cases e1 : unifyFields (.cons k1 v1 t1) t2 with
                  | error e' => cases e'; simp only [bind_error_left]
                  | ok m =>
                    simp only [bind_ok_left]
                    rw [uf_cons_eq_error v2 m v3 t3 e23]
                | ok w =>
                  have IHf := IHL (.cons k1 v1 t1) t2 t3
                    (by simp only [FieldList.cons.sizeOf_spec] at hsz ⊢; omega)
                  rw [uf_cons_eq_ok v2 t2 v3 t3 w e23, bind_map_cons]
                  cases e1 : unifyFields (.cons k1 v1 t1) t2 with
                  | error e' =>
                    cases e'
                    rw [e1] at IHf
                    simp only [bind_error_left] at IHf ⊢
                    cases e2 : unifyFields t2 t3 with
                    | error e'' => cases e''; simp only [bind_error_left]
                    | ok m2 =>
                      rw [e2] at IHf
                      simp only [bind_ok_left] at IHf ⊢
                      rw [uf_cons_gt v1 t1 w m2 h12, ← IHf]
                      rfl
                  | ok m =>
                    rw [e1] at IHf
                    simp only [bind_ok_left] at IHf ⊢
                    rw [uf_cons_eq_ok v2 m v3 t3 w e23, IHf]
                    cases e2 : unifyFields t2 t3 with
                    | error e'' => cases e''; rfl
                    | ok m2 =>
                      simp only [bind_ok_left]
                      rw [uf_cons_gt v1 t1 w m2 h12]
              · -- k3 < k2 < k1
                have h13 : k3 < k1 := lt_trans h23 h12
                have IHg := IHL (.cons k1 v1 t1) (.cons k2 v2 t2) t3
                  (by simp only [FieldList.cons.sizeOf_spec] at hsz ⊢; omega)
                rw [uf_cons_gt v1 t1 v2 t2 h12, bind_map_cons,
                  uf_cons_gt v2 t2 v3 t3 h23, bind_map_cons]
                rw [uf_cons_gt v1 t1 v2 t2 h12, bind_map_cons] at IHg
                cases e1 : unifyFields (.cons k1 v1 t1) t2 with
                | error e =>
                  cases e
                  rw [e1] at IHg
                  simp only [bind_error_left] at IHg ⊢
                  cases e2 : unifyFields (.cons k2 v2 t2) t3 with
                  | error e' => cases e'; simp only [bind_error_left]
                  | ok m2 =>
                    rw [e2] at IHg
                    simp only [bind_ok_left] at IHg ⊢
                    rw [uf_cons_gt v1 t1 v3 m2 h13, ← IHg]
                    rfl
                | ok m =>
                  rw [e1] at IHg
                  simp only [bind_ok_left] at IHg ⊢
                  rw [uf_cons_gt v2 m v3 t3 h23, IHg]
                  cases e2 : unifyFields (.cons k2 v2 t2) t3 with
                  | error e' => cases e'; rfl
                  | ok m2 =>
                    simp only [bind_ok_left]
                    rw [uf_cons_gt v1 t1 v3 m2 h13]

/-- Associativity of unify in strong Kleisli form. -/
theorem unify_assoc (a b c : Value) :
    Except.bind (unify a b) (fun x => unify x c) =
      Except.bind (unify b c) (fun x => unify a x) :=
  (unify_assoc_sized (sizeOf a + sizeOf b + sizeOf c)).1 a b c le_rfl

theorem bind_assoc_exc {α β γ : Type} (e : Except Unit α)
    (f : α → Except Unit β) (g : β → Except Unit γ) :
    Except.bind (Except.bind e f) g = Except.bind e (fun a => Except.bind (f a) g) := by
  cases e <;> rfl

theorem unifyAll_cons (acc f : Value) (rest : List Value) :
    unifyAll acc (f :: rest) =
      Except.bind (unify acc f) (fun v => unifyAll v rest) := by
  rw [unifyAll]
  cases unify acc f <;> rfl

/-- Merging two fragments into an accumulator in either order gives the
same outcome. -/
theorem unify_two_comm (acc x y : Value) :
    Except.bind (unify acc y) (fun a => unify a x) =
      Except.bind (unify acc x) (fun a => unify a y) := by
  rw [unify_assoc, unify_comm y x, ← unify_assoc]

/-- The deep merge of a list of fragments is invariant under
permutation of the fragments. -/
theorem unifyAll_perm {l l' : List Value} (hp : List.Perm l l') :
    ∀ acc : Value, unifyAll acc l = unifyAll acc l' := by
  induction hp with
  | nil => intro acc; rfl
  | cons x hp ih =>
    intro acc
    rw [unifyAll_cons, unifyAll_cons]
    cases unify acc x with
    | error e => rfl
    | ok v => simp only [bind_ok_left]; exact ih v
  | swap x y l =>
    intro acc
    simp only [unifyAll_cons]
    rw [← bind_assoc_exc, ← bind_assoc_exc, unify_two_comm]
  | trans hp1 hp2 ih1 ih2 =>
    intro acc
    rw [ih1 acc, ih2 acc]

theorem unify_empty_obj {f : Value} (hf : f.isObj = true) :
    unify (Value.obj .nil) f = .ok f := by
  obtain ⟨ff, rfl⟩ := isObj_ex hf
  rw [unify_obj_obj, uf_nil_left]
  rfl

/-- Running updateAll over fragments tracks the deep merge of the
fragments into the stored value. -/
theorem updateAll_tracks (domain item : String) :
    ∀ (l : List Value) (store : PStore) (acc v : Value),
      store (domain, item) = some acc →
      (∀ f ∈ l, f.isObj = true) →
      unifyAll acc l = .ok v →
      ∃ s, PDict.updateAll store domain item l = .ok s ∧
        s (domain, item) = some v := by
  intro l
  induction l with
  | nil =>
    intro store acc v hacc _ hv
    refine ⟨store, rfl, ?_⟩
    rw [unifyAll] at hv
    obtain rfl : acc = v := by injection hv
    exact hacc
  | cons f rest ih =>
    intro store acc v hacc hobj hv
    have hf : f.isObj = true := hobj f (List.mem_cons_self f rest)
    rw [unifyAll_cons] at hv
    cases e1 : unify acc f with
    | error e =>
      cases e
      rw [e1] at hv
      simp only [bind_error_left] at hv
      exact Except.noConfusion hv
    | ok w =>
      rw [e1] at hv
      simp only [bind_ok_left] at hv
      have hupd : PDict.update store domain item f =
          .ok (fun k => if k = (domain, item) then some w else store k) := by
        rw [PDict.update, if_neg (by rw [hf]; simp), hacc]
        simp only [e1]
      obtain ⟨s, hs, hsv⟩ := ih
        (fun k => if k = (domain, item) then some w else store k) w v
        (by simp) (fun g hg => hobj g (List.mem_cons_of_mem f hg)) hv
      refine ⟨s, ?_, hsv⟩
      rw [PDict.updateAll, hupd]
      exact hs

/-- Starting from an empty store, a nonempty list of dict fragments
whose deep merge succeeds is applied in full, and the stored result is
that deep merge. -/
theorem updateAll_from_empty (domain item : String) (l : List Value)
    (v : Value) (hne : l ≠ [])
    (hobj : ∀ f ∈ l, f.isObj = true)
    (hv : unifyAll (Value.obj .nil) l = .ok v) :
    ∃ s, PDict.updateAll emptyPStore domain item l = .ok s ∧
      s (domain, item) = some v := by
  cases l with
  | nil => exact absurd rfl hne
  | cons f rest =>
    have hf : f.isObj = true := hobj f (List.mem_cons_self f rest)
    rw [unifyAll_cons, unify_empty_obj hf] at hv
    simp only [bind_ok_left] at hv
    have hupd : PDict.update emptyPStore domain item f =
        .ok (fun k => if k = (domain, item) then some f else emptyPStore k) := by
      rw [PDict.update, if_neg (by rw [hf]; simp)]
      rfl
    obtain ⟨s, hs, hsv⟩ := updateAll_tracks domain item rest
      (fun k => if k = (domain, item) then some f else emptyPStore k) f v
      (by simp) (fun g hg => hobj g (List.mem_cons_of_mem f hg)) hv
    refine ⟨s, ?_, hsv⟩
    rw [PDict.updateAll, hupd]
    exact hs

/-- C5: unify is order-independent (commutative and associative in
strong Kleisli form), and any permutation of a nonempty family of
mutually unifiable dict fragments, applied through PDict.update to one
(domain, item) key of an empty store, succeeds in full and stores the
same value: the deep merge of the fragments. -/
theorem c5_update_order_independent :
    (∀ v1 v2 : Value, unify v1 v2 = unify v2 v1) ∧
    (∀ a b c : Value,
      Except.bind (unify a b) (fun x => unify x c) =
        Except.bind (unify b c) (fun x => unify a x)) ∧
    (∀ (domain item : String) (l l' : List Value) (v : Value),
      List.Perm l l' → l ≠ [] →
      (∀ f ∈ l, f.isObj = true) →
      unifyAll (Value.obj .nil) l = .ok v →
      ∃ s, PDict.updateAll emptyPStore domain item l' = .ok s ∧
        s (domain, item) = some v) := by
  refine ⟨unify_comm, unify_assoc, ?_⟩
  intro domain item l l' v hp hne hobj hv
  have hne' : l' ≠ [] := by
    intro h
    subst h
    exact hne hp.eq_nil
  have hobj' : ∀ f ∈ l', f.isObj = true := fun f hf =>
    hobj f (hp.mem_iff.mpr hf)
  have hv' : unifyAll (Value.obj .nil) l' = .ok v := by
    rw [← unifyAll_perm hp (Value.obj .nil)]
    exact hv
  exact updateAll_from_empty domain item l' v hne' hobj' hv'

/-- Witness for C5 at the concrete fragments of the test suite, applied
in both orders. -/
theorem c5_update_order_independent_witness :
    ∃ s, PDict.updateAll emptyPStore "d1" "i1"
        [Value.obj (.cons "new" (.str "data") .nil),
         Value.obj (.cons "hi" (.str "there") .nil)] = .ok s ∧
      s ("d1", "i1") = some (Value.obj (.cons "hi" (.str "there")
        (.cons "new" (.str "data") .nil))) :=
  c5_update_order_independent.2.2 "d1" "i1"
    [Value.obj (.cons "hi" (.str "there") .nil),
     Value.obj (.cons "new" (.str "data") .nil)]
    [Value.obj (.cons "new" (.str "data") .nil),
     Value.obj (.cons "hi" (.str "there") .nil)]
    (Value.obj (.cons "hi" (.str "there") (.cons "new" (.str "data") .nil)))
    (List.Perm.swap _ _ _) (List.cons_ne_nil _ _)
    (by
      intro f hf
      cases hf with
      | head => rfl
      | tail _ hf =>
        cases hf with
        | head => rfl
        | tail _ hf => cases hf)
    (by
      rw [unifyAll_cons,
        @unify_empty_obj (Value.obj (.cons "hi" (.str "there") .nil)) rfl,
        bind_ok_left]
      show unifyAll (Value.obj (.cons "hi" (.str "there") .nil))
          [Value.obj (.cons "new" (.str "data") .nil)] = _
      rw [unifyAll_cons, unify_obj_obj,
        uf_cons_lt (Value.str "there") .nil (Value.str "data") .nil
          (by rw [String.lt_iff_toList_lt]; decide), uf_nil_left]
      rfl)

/-- C4 (amended): PDict.update raises TypeError on a non-dict fragment
and a conflict error when unify fails, leaving the stored value
unchanged on every failure; on success the stored value becomes the
unification of the existing value with the fragment, or the fragment
itself when no record exists yet. -/
theorem c4_update_conflict_behavior :
    ∀ (store : PStore) (domain item : String) (frag : Value),
      (frag.isObj = false →
        PDict.update store domain item frag = .error .typeError ∧
        PDict.updateState store domain item frag = store) ∧
      (∀ existing, frag.isObj = true →
        store (domain, item) = some existing →
        unify existing frag = .error () →
        PDict.update store domain item frag = .error .conflict ∧
        PDict.updateState store domain item frag = store) ∧
      (frag.isObj = true → store (domain, item) = none →
        PDict.update store domain item frag =
          .ok (fun k => if k = (domain, item) then some frag else store k)) ∧
      (∀ existing v, frag.isObj = true →
        store (domain, item) = some existing →
        unify existing frag = .ok v →
        PDict.update store domain item frag =
          .ok (fun k => if k = (domain, item) then some v else store k)) := by
  intro store domain item frag
  refine ⟨?_, ?_, ?_, ?_⟩
  · intro hobj
    have h : PDict.update store domain item frag = .error .typeError := by
      rw [PDict.update, if_pos (by rw [hobj]; simp)]
    exact ⟨h, by rw [PDict.updateState, h]⟩
  · intro existing hobj hex hconf
    have h : PDict.update store domain item frag = .error .conflict := by
      rw [PDict.update, if_neg (by rw [hobj]; simp), hex]
      simp only [hconf]
    exact ⟨h, by rw [PDict.updateState, h]⟩
  · intro hobj hnone
    rw [PDict.update, if_neg (by rw [hobj]; simp), hnone]
  · intro existing v hobj hex hok
    rw [PDict.update, if_neg (by rw [hobj]; simp), hex]
    simp only [hok]

/-- Witness for C4 at the concrete merge-conflict scenario of the
spec: a conflicting fragment is rejected and the stored value for
(d1, i1) is unchanged. -/
theorem c4_update_conflict_behavior_witness :
    PDict.update
        (fun k => if k = ("d1", "i1")
          then some (Value.obj (.cons "hi" (.str "there") .nil)) else none)
        "d1" "i1" (Value.obj (.cons "hi" (.str "oops") .nil)) =
      .error .conflict ∧
    PDict.updateState
        (fun k => if k = ("d1", "i1")
          then some (Value.obj (.cons "hi" (.str "there") .nil)) else none)
        "d1" "i1" (Value.obj (.cons "hi" (.str "oops") .nil)) =
      (fun k => if k = ("d1", "i1")
        then some (Value.obj (.cons "hi" (.str "there") .nil)) else none) :=
  (c4_update_conflict_behavior
      (fun k => if k = ("d1", "i1")
        then some (Value.obj (.cons "hi" (.str "there") .nil)) else none)
      "d1" "i1" (Value.obj (.cons "hi" (.str "oops") .nil))).2.1
    (Value.obj (.cons "hi" (.str "there") .nil)) rfl rfl
    (by
      rw [unify_obj_obj,
        uf_cons_eq_error (Value.str "there") .nil (Value.str "oops") .nil
          (by rw [@unify_non_obj (.str "there") (.str "oops") (Or.inl rfl),
            if_neg (by decide)])]
      rfl)

/-- Counterexample to C4 as stated: a non-dict fragment fails with a
TypeError, which is not the conflict error. -/
theorem c4_nondict_not_conflict :
    PDict.update emptyPStore "d1" "i1" (Value.num 1) = .error .typeError ∧
    UpdateError.typeError ≠ UpdateError.conflict := by
  constructor
  · rw [PDict.update, if_pos (by simp [Value.isObj])]
  · decide

/-- C1: under retry_txn, an attempt whose commit reports a
serialization conflict is discarded whole and the block is re-invoked
from scratch; this repeats for any number n of conflicted attempts
until a commit succeeds, and only the final attempt writes are
committed.  If instead the block raises, the error propagates
immediately after rollback with no further attempt. -/
theorem c1_retry_txn_semantics :
    ∀ (W E : Type) (block : Nat → BlockRun W E)
      (outcome : Nat → CommitOutcome) (n : Nat)
      (h : ∃ k, stopsAt block outcome k = true),
      (∀ k, k < n →
        (∃ wk, block k = .completes wk) ∧
          outcome k = .serializationFailure) →
      ((∀ wn, block n = .completes wn → outcome n = .ok →
          retry_txn block outcome h = .committed wn (n + 1)) ∧
        (∀ e, block n = .raises e →
          retry_txn block outcome h = .blockError e (n + 1))) := by
  intro W E block outcome n h hprev
  have hnostop : ∀ m, m < n → ¬ stopsAt block outcome m = true := by
    intro m hm
    obtain ⟨⟨wm, hwm⟩, hser⟩ := hprev m hm
    rw [stopsAt, hwm, hser]
    simp
  constructor
  · intro wn hwn hok
    have hfind : Nat.find h = n := by
      rw [Nat.find_eq_iff]
      exact ⟨by rw [stopsAt, hwn, hok]; simp, hnostop⟩
    rw [retry_txn]
    simp only [hfind, hwn, hok]
  · intro e he
    have hfind : Nat.find h = n := by
      rw [Nat.find_eq_iff]
      exact ⟨by rw [stopsAt, he], hnostop⟩
    rw [retry_txn]
    simp only [hfind, he]

/-- Witness for C1: one serialization conflict then a successful
commit gives the second attempt writes after two attempts; a block
that raises propagates after a single attempt. -/
theorem c1_retry_txn_semantics_witness :
    retry_txn (fun k => (BlockRun.completes k : BlockRun Nat String))
      (fun k => if k = 0 then .serializationFailure else .ok)
      ⟨1, by decide⟩ = .committed 1 2 ∧
    retry_txn (fun _ => (BlockRun.raises "boom" : BlockRun Nat String))
      (fun _ => .ok) ⟨0, by decide⟩ = .blockError "boom" 1 := by
  constructor
  · exact (c1_retry_txn_semantics Nat String _ _ 1 _
      (fun k hk => by
        have hk0 : k = 0 := by omega
        subst hk0
        exact ⟨⟨0, rfl⟩, rfl⟩)).1 1 rfl rfl
  · exact (c1_retry_txn_semantics Nat String _ _ 0 _
      (fun k hk => absurd hk (by omega))).2 "boom" rfl

/-- C8: a caller that exits the retry loop early after receiving
session j, while every attempt so far ended in a serialization
conflict, is detected: retry_txn raises AssertionError instead of
silently losing the uncommitted result. -/
theorem c8_early_exit_detected :
    ∀ (W E : Type) (block : Nat → BlockRun W E)
      (outcome : Nat → CommitOutcome) (j : Nat),
      (∀ k, k < j →
        (∃ wk, block k = .completes wk) ∧
          outcome k = .serializationFailure) →
      retry_txn_early_exit block outcome j = .earlyExitAssertion := by
  intro W E block outcome j hprev
  rw [retry_txn_early_exit, dif_neg]
  intro ⟨k, hk, hstop⟩
  obtain ⟨⟨wk, hwk⟩, hser⟩ := hprev k hk
  rw [stopsAt, hwk, hser] at hstop
  simp at hstop

/-- Witness for C8: breaking out immediately (the return inside the
loop from the docstring) raises AssertionError. -/
theorem c8_early_exit_detected_witness :
    retry_txn_early_exit (fun k => (BlockRun.completes k : BlockRun Nat String))
      (fun _ => .ok) 0 = .earlyExitAssertion :=
  c8_early_exit_detected Nat String _ _ 0 (fun k hk => absurd hk (by omega))

/-- C3: the four cases of send_message, in the priority order of the
source: an identical duplicate is a silent no-op; a differing duplicate
is a conflict error; a fresh message_id on a finalized channel is a
closed-channel error; otherwise the message is inserted. -/
theorem c3_send_message_cases :
    ∀ (db : ChanDB) (domain channel message_id : String) (message : Value)
      (final : Bool),
      (∀ existing,
        db.log.find? (fun m => m.domain == domain && m.channel == channel &&
          m.message_id == message_id) = some existing →
        ((message = existing.message ∧ final = existing.final →
            send_message db domain channel message_id message final =
              .ok db) ∧
          (message ≠ existing.message ∨ final ≠ existing.final →
            send_message db domain channel message_id message final =
              .error .conflict))) ∧
      (db.log.find? (fun m => m.domain == domain && m.channel == channel &&
          m.message_id == message_id) = none →
        ((db.log.any (fun m => m.domain == domain && m.channel == channel &&
            m.final) = true →
            send_message db domain channel message_id message final =
              .error .closed) ∧
          (db.log.any (fun m => m.domain == domain && m.channel == channel &&
              m.final) = false →
            send_message db domain channel message_id message final =
              .ok ⟨db.log ++ [⟨domain, channel, message_id, message, final,
                db.nextOrder⟩], db.nextOrder + 1⟩))) := by
  intro db domain channel message_id message final
  constructor
  · intro existing hfind
    constructor
    · intro ⟨hmsg, hfin⟩
      rw [send_message]
      simp only [hfind]
      rw [if_neg (by simp [hmsg, hfin])]
    · intro hdiff
      rw [send_message]
      simp only [hfind]
      rw [if_pos hdiff]
  · intro hfind
    constructor
    · intro hfin
      rw [send_message]
      simp only [hfind]
      rw [if_pos hfin]
    · intro hnofin
      rw [send_message]
      simp only [hfind]
      rw [if_neg (by simp [hnofin])]

/-- Witness for C3 at the concrete channel scenario of the test suite:
a duplicate identical append is a no-op and a conflicting payload for
the same message_id is rejected. -/
theorem c3_send_message_cases_witness :
    send_message ⟨[⟨"d1", "c1", "m1", Value.obj (.cons "hi" (.str "there") .nil),
        false, 0⟩], 1⟩ "d1" "c1" "m1"
      (Value.obj (.cons "hi" (.str "there") .nil)) false =
      .ok ⟨[⟨"d1", "c1", "m1", Value.obj (.cons "hi" (.str "there") .nil),
        false, 0⟩], 1⟩ ∧
    send_message ⟨[⟨"d1", "c1", "m1", Value.obj (.cons "hi" (.str "there") .nil),
        false, 0⟩], 1⟩ "d1" "c1" "m1"
      (Value.obj (.cons "hi" (.str "oops") .nil)) false =
      .error .conflict := by
  constructor
  · exact ((c3_send_message_cases _ "d1" "c1" "m1" _ false).1
      ⟨"d1", "c1", "m1", Value.obj (.cons "hi" (.str "there") .nil), false, 0⟩
      (by decide)).1 ⟨rfl, rfl⟩
  · exact ((c3_send_message_cases _ "d1" "c1" "m1" _ false).1
      ⟨"d1", "c1", "m1", Value.obj (.cons "hi" (.str "there") .nil), false, 0⟩
      (by decide)).2 (Or.inl (by decide))

/-- C7: the empty database is well formed, send_message preserves well
formedness (each insert takes the next value of the single global
sequence, atomically with the insert), and in a well-formed database
any two distinct committed messages have different positions, with
positions increasing in commit order across all channels. -/
theorem c7_positions_globally_unique :
    ChanDBWF emptyChanDB ∧
    (∀ db domain channel message_id message final db',
      ChanDBWF db →
      send_message db domain channel message_id message final = .ok db' →
      ChanDBWF db') ∧
    (∀ db, ChanDBWF db →
      List.Pairwise (fun m1 m2 => m1.order ≠ m2.order) db.log) := by
  refine ⟨⟨List.Pairwise.nil, by simp [emptyChanDB], by simp [emptyChanDB],
    by simp [emptyChanDB]⟩, ?_, ?_⟩
  · intro db domain channel message_id message final db' hwf hok
    obtain ⟨hpair, hlt, hpos, hseq⟩ := hwf
    rw [send_message] at hok
    cases hfind : db.log.find? (fun m => m.domain == domain &&
        m.channel == channel && m.message_id == message_id) with
    | some existing =>
      simp only [hfind] at hok
      by_cases hdiff : message ≠ existing.message ∨ final ≠ existing.final
      · rw [if_pos hdiff] at hok
        exact Except.noConfusion hok
      · rw [if_neg hdiff] at hok
        obtain rfl : db = db' := by injection hok
        exact ⟨hpair, hlt, hpos, hseq⟩
    | none =>
      simp only [hfind] at hok
      by_cases hfin : db.log.any (fun m => m.domain == domain &&
          m.channel == channel && m.final) = true
      · rw [if_pos hfin] at hok
        exact Except.noConfusion hok
      · rw [if_neg hfin] at hok
        obtain rfl : (⟨db.log ++ [⟨domain, channel, message_id, message,
            final, db.nextOrder⟩], db.nextOrder + 1⟩ : ChanDB) = db' := by
          injection hok
        refine ⟨?_, ?_, ?_, ?_⟩
        · rw [List.pairwise_append]
          refine ⟨hpair, List.pairwise_singleton _ _, ?_⟩
          intro m hm m' hm'
          rw [List.mem_singleton] at hm'
          subst hm'
          exact hlt m hm
        · intro m hm
          rcases List.mem_append.mp hm with hm | hm
          · have h := hlt m hm
            show m.order < db.nextOrder + 1
            omega
          · rw [List.mem_singleton] at hm
            subst hm
            show db.nextOrder < db.nextOrder + 1
            omega
        · intro m hm
          rcases List.mem_append.mp hm with hm | hm
          · exact hpos m hm
          · rw [List.mem_singleton] at hm
            subst hm
            exact hseq
        · show (0 : Int) ≤ db.nextOrder + 1
          omega
  · intro db hwf
    exact hwf.1.imp (fun h => ne_of_lt h)

/-- Witness for C7: inserting two messages on different channels of the
empty database assigns them the distinct global positions 0 and 1. -/
theorem c7_positions_globally_unique_witness :
    ChanDBWF ⟨[⟨"d1", "c1", "m1", Value.null, false, 0⟩,
      ⟨"d2", "c9", "m1", Value.null, false, 1⟩], 2⟩ ∧
    List.Pairwise (fun m1 m2 => m1.order ≠ m2.order)
      ([⟨"d1", "c1", "m1", Value.null, false, 0⟩,
        ⟨"d2", "c9", "m1", Value.null, false, 1⟩] : List ChannelMessage) := by
  have h1 : ChanDBWF ⟨[⟨"d1", "c1", "m1", Value.null, false, 0⟩], 1⟩ :=
    (c7_positions_globally_unique.2.1 emptyChanDB "d1" "c1" "m1" Value.null
      false _ c7_positions_globally_unique.1 (by decide))
  have h2 : ChanDBWF ⟨[⟨"d1", "c1", "m1", Value.null, false, 0⟩,
      ⟨"d2", "c9", "m1", Value.null, false, 1⟩], 2⟩ :=
    (c7_positions_globally_unique.2.1
      ⟨[⟨"d1", "c1", "m1", Value.null, false, 0⟩], 1⟩ "d2" "c9" "m1"
      Value.null false _ h1 (by decide))
  exact ⟨h2, c7_positions_globally_unique.2.2 _ h2⟩

theorem deliverBatch_yields (l : List ChannelMessage) (ms : Int) :
    (deliverBatch l ms).1 = truncAtFinal l := by
  induction l generalizing ms with
  | nil => rfl
  | cons m rest ih =>
    rw [deliverBatch, truncAtFinal]
    by_cases hf : m.final
    · rw [if_pos hf, if_pos hf]
    · rw [if_neg hf, if_neg hf]
      simp only []
      rw [ih m.order]

theorem deliverBatch_done (l : List ChannelMessage) (ms : Int) :
    (deliverBatch l ms).2.2 = l.any (fun m => m.final) := by
  induction l generalizing ms with
  | nil => rfl
  | cons m rest ih =>
    rw [deliverBatch, List.any_cons]
    by_cases hf : m.final
    · rw [if_pos hf, hf]
      rfl
    · rw [if_neg hf]
      simp only [ih m.order]
      rw [Bool.eq_false_iff.mpr hf]
      rfl

theorem deliverBatch_cursor (l : List ChannelMessage) (ms : Int)
    (hnf : ∀ m ∈ l, m.final = false) :
    (deliverBatch l ms).2.1 = lastOrderD l ms := by
  induction l generalizing ms with
  | nil => rfl
  | cons m rest ih =>
    rw [deliverBatch, lastOrderD,
      if_neg (by rw [hnf m (List.mem_cons_self m rest)]; simp)]
    exact ih m.order (fun m' hm' => hnf m' (List.mem_cons_of_mem m hm'))

theorem lastOrderD_mem (l : List ChannelMessage) (ms : Int) :
    lastOrderD l ms = ms ∨ ∃ m ∈ l, lastOrderD l ms = m.order := by
  induction l generalizing ms with
  | nil => exact Or.inl rfl
  | cons m rest ih =>
    rw [lastOrderD]
    rcases ih m.order with h | ⟨m', hm', h⟩
    · exact Or.inr ⟨m, List.mem_cons_self m rest, h⟩
    · exact Or.inr ⟨m', List.mem_cons_of_mem m hm', h⟩

theorem lastOrderD_ub (l : List ChannelMessage) (ms : Int)
    (hpair : List.Pairwise (fun m1 m2 => m1.order < m2.order) l)
    (hgt : ∀ m ∈ l, ms < m.order) :
    ms ≤ lastOrderD l ms ∧ ∀ m ∈ l, m.order ≤ lastOrderD l ms := by
  induction l generalizing ms with
  | nil => exact ⟨le_refl ms, by simp⟩
  | cons m rest ih =>
    rw [List.pairwise_cons] at hpair
    obtain ⟨hm, hpair⟩ := hpair
    obtain ⟨h1, h2⟩ := ih m.order hpair hm
    rw [lastOrderD]
    refine ⟨le_trans (le_of_lt (hgt m (List.mem_cons_self m rest))) h1, ?_⟩
    intro m' hm'
    rcases List.mem_cons.mp hm' with rfl | hm'
    · exact h1
    · exact h2 m' hm'

theorem truncAtFinal_append_noFinal (P Q : List ChannelMessage)
    (hnf : ∀ m ∈ P, m.final = false) :
    truncAtFinal (P ++ Q) =
      P.map (fun m => m.message) ++ truncAtFinal Q := by
  induction P with
  | nil => rfl
  | cons m rest ih =>
    rw [List.cons_append, truncAtFinal,
      if_neg (by rw [hnf m (List.mem_cons_self m rest)]; simp),
      List.map_cons, List.cons_append,
      ih (fun m' hm' => hnf m' (List.mem_cons_of_mem m hm'))]

theorem truncAtFinal_of_noFinal (l : List ChannelMessage)
    (hnf : ∀ m ∈ l, m.final = false) :
    truncAtFinal l = l.map (fun m => m.message) := by
  have h := truncAtFinal_append_noFinal l [] hnf
  rw [List.append_nil] at h
  rw [h, truncAtFinal, List.append_nil]

theorem truncAtFinal_append_hasFinal (l l' : List ChannelMessage)
    (hf : l.any (fun m => m.final) = true) :
    truncAtFinal (l ++ l') = truncAtFinal l := by
  induction l with
  | nil => simp at hf
  | cons m rest ih =>
    rw [List.cons_append, truncAtFinal, truncAtFinal]
    by_cases hmf : m.final
    · rw [if_pos hmf, if_pos hmf]
    · rw [if_neg hmf, if_neg hmf]
      rw [List.any_cons, Bool.eq_false_iff.mpr hmf] at hf
      simp only [Bool.false_or] at hf
      rw [ih hf]

theorem channelMessages_append (L D : List ChannelMessage)
    (domain channel : String) :
    channelMessages (L ++ D) domain channel =
      channelMessages L domain channel ++ channelMessages D domain channel :=
  List.filter_append L D

theorem extendsLog_trans {l1 l2 l3 : List ChannelMessage}
    (h12 : extendsLog l1 l2) (h23 : extendsLog l2 l3) : extendsLog l1 l3 := by
  obtain ⟨t1, rfl⟩ := h12
  obtain ⟨t2, rfl⟩ := h23
  exact ⟨t1 ++ t2, List.append_assoc l1 t1 t2⟩

theorem chain_extendsLast :
    ∀ (logs : List (List ChannelMessage)) (L : List ChannelMessage),
      LogChain (L :: logs) → extendsLog L (lastSnapshot L logs) := by
  intro logs
  induction logs with
  | nil =>
    intro L _
    exact ⟨[], (List.append_nil L).symm⟩
  | cons L1 rest ih =>
    intro L hchain
    rw [LogChain] at hchain
    obtain ⟨hext, hchain'⟩ := hchain
    exact extendsLog_trans hext (ih L1 hchain')

theorem ChanLogWF_of_extendsLog {L L' : List ChannelMessage}
    (hext : extendsLog L L') (hwf : ChanLogWF L') : ChanLogWF L := by
  obtain ⟨t, rfl⟩ := hext
  exact ⟨hwf.1.sublist (List.sublist_append_left L t),
    fun m hm => hwf.2 m (List.mem_append.mpr (Or.inl hm))⟩

theorem delta_orders_gt {L D : List ChannelMessage} {ms : Int}
    (hwf : ChanLogWF (L ++ D))
    (hrep : ms = -1 ∨ ∃ m0 ∈ L, ms = m0.order) :
    ∀ m ∈ D, ms < m.order := by
  intro m hm
  rcases hrep with rfl | ⟨m0, hm0, rfl⟩
  · have := hwf.2 m (List.mem_append.mpr (Or.inr hm))
    omega
  · exact (List.pairwise_append.mp hwf.1).2.2 m0 hm0 m hm

theorem chanQuery_extend (domain channel : String)
    {L D : List ChannelMessage} {ms : Int}
    (hwf : ChanLogWF (L ++ D))
    (hub : ∀ m ∈ channelMessages L domain channel, m.order ≤ ms)
    (hgt : ∀ m ∈ D, ms < m.order) :
    chanQuery (L ++ D) domain channel ms =
      channelMessages D domain channel := by
  rw [chanQuery, List.filter_append]
  have h1 : L.filter (fun m => m.domain == domain && m.channel == channel &&
      decide (ms < m.order)) = [] := by
    rw [List.filter_eq_nil_iff]
    intro m hm hcontra
    simp only [Bool.and_eq_true, beq_iff_eq, decide_eq_true_eq] at hcontra
    obtain ⟨⟨hd, hc⟩, hlt⟩ := hcontra
    have hmem : m ∈ channelMessages L domain channel := by
      rw [channelMessages, List.mem_filter]
      exact ⟨hm, by simp [hd, hc]⟩
    have := hub m hmem
    omega
  have h2 : D.filter (fun m => m.domain == domain && m.channel == channel &&
      decide (ms < m.order)) = channelMessages D domain channel := by
    rw [channelMessages]
    apply List.filter_congr
    intro m hm
    show (m.domain == domain && m.channel == channel &&
      decide (ms < m.order)) = (m.domain == domain && m.channel == channel)
    rw [decide_eq_true (hgt m hm), Bool.and_true]
  rw [h1, h2, List.nil_append]
  apply List.Sorted.insertionSort_eq
  have hD : List.Pairwise (fun m1 m2 => m1.order < m2.order) D :=
    (List.pairwise_append.mp hwf.1).2.1
  have hcm : List.Pairwise (fun m1 m2 => m1.order < m2.order)
      (channelMessages D domain channel) :=
    hD.sublist (List.filter_sublist D)
  exact hcm.imp (fun h => le_of_lt h)

theorem subRun_done (domain channel : String) :
    ∀ (logs : List (List ChannelMessage)) (s : SubState), s.done = true →
      subRun domain channel logs s = ([], s) := by
  intro logs
  induction logs with
  | nil => intro s _; rfl
  | cons L rest ih =>
    intro s hs
    rw [subRun, subStep, if_pos hs]
    simp only []
    rw [ih s hs]
    rfl

/-- Core correctness of the messages() subscriber: over any chain of
log snapshots (one per wake-up, each extending the previous), a
subscriber whose cursor accounts exactly for the channel rows of L0
delivers, across all remaining wake-ups, exactly the channel payloads
beyond L0 of the last snapshot in position order, cut at the first
final message; and it finishes exactly when the channel holds a final
message. -/
theorem subRun_correct (domain channel : String) :
    ∀ (logs : List (List ChannelMessage)) (L0 : List ChannelMessage)
      (s : SubState),
      s.done = false →
      (∀ m ∈ channelMessages L0 domain channel, m.order ≤ s.max_seen) →
      (s.max_seen = -1 ∨ ∃ m0 ∈ L0, s.max_seen = m0.order) →
      (∀ m ∈ channelMessages L0 domain channel, m.final = false) →
      LogChain (L0 :: logs) →
      ChanLogWF (lastSnapshot L0 logs) →
      ((channelMessages L0 domain channel).map (fun m => m.message) ++
          (subRun domain channel logs s).1 =
        truncAtFinal
          (channelMessages (lastSnapshot L0 logs) domain channel)) ∧
      ((subRun domain channel logs s).2.done = true ↔
        (channelMessages (lastSnapshot L0 logs) domain channel).any
          (fun m => m.final) = true) := by
  intro logs
  induction logs with
  | nil =>
    intro L0 s hdone hub hrep hnf hchain hwf
    rw [subRun]
    constructor
    · show (channelMessages L0 domain channel).map (fun m => m.message) ++ [] =
        truncAtFinal (channelMessages L0 domain channel)
      rw [List.append_nil, truncAtFinal_of_noFinal _ hnf]
    · show s.done = true ↔ _
      rw [hdone]
      constructor
      · intro h
        exact Bool.noConfusion h
      · intro h
        obtain ⟨m, hm, hf⟩ := List.any_eq_true.mp h
        rw [hnf m hm] at hf
        exact Bool.noConfusion hf
  | cons L1 rest ih =>
    intro L0 s hdone hub hrep hnf hchain hwf
    rw [LogChain] at hchain
    obtain ⟨⟨D, rfl⟩, hchain'⟩ := hchain
    rw [show lastSnapshot L0 ((L0 ++ D) :: rest) =
      lastSnapshot (L0 ++ D) rest from rfl]
    have hwf' : ChanLogWF (lastSnapshot (L0 ++ D) rest) := hwf
    have hwfL1 : ChanLogWF (L0 ++ D) :=
      ChanLogWF_of_extendsLog (chain_extendsLast rest (L0 ++ D) hchain') hwf'
    have hgt : ∀ m ∈ D, s.max_seen < m.order := delta_orders_gt hwfL1 hrep
    have hq : chanQuery (L0 ++ D) domain channel s.max_seen =
        channelMessages D domain channel :=
      chanQuery_extend domain channel hwfL1 hub hgt
    have hqD : List.Pairwise (fun m1 m2 => m1.order < m2.order)
        (channelMessages D domain channel) :=
      ((List.pairwise_append.mp hwfL1.1).2.1).sublist (List.filter_sublist D)
    have hgtq : ∀ m ∈ channelMessages D domain channel, s.max_seen < m.order :=
      fun m hm => hgt m (List.mem_filter.mp hm).1
    have hcm1 : channelMessages (L0 ++ D) domain channel =
        channelMessages L0 domain channel ++
          channelMessages D domain channel :=
      channelMessages_append L0 D domain channel
    rw [subRun, subStep, if_neg (by rw [hdone]; simp)]
    simp only [hq]
    rw [deliverBatch_yields, deliverBatch_done]
    by_cases hfD : (channelMessages D domain channel).any
        (fun m => m.final) = true
    · -- the batch carries a final message: the generator returns here
      rw [hfD]
      rw [subRun_done domain channel rest _ rfl]
      obtain ⟨D2, hLL⟩ := chain_extendsLast rest (L0 ++ D) hchain'
      constructor
      · show (channelMessages L0 domain channel).map (fun m => m.message) ++
          (truncAtFinal (channelMessages D domain channel) ++ []) = _
        rw [List.append_nil, hLL, List.append_assoc,
          channelMessages_append, channelMessages_append,
          truncAtFinal_append_noFinal _ _ hnf,
          truncAtFinal_append_hasFinal _ _ hfD]
      · constructor
        · intro _
          rw [hLL, List.append_assoc, channelMessages_append,
            channelMessages_append]
          obtain ⟨m, hm, hmf⟩ := List.any_eq_true.mp hfD
          exact List.any_eq_true.mpr
            ⟨m, List.mem_append.mpr (Or.inr (List.mem_append.mpr (Or.inl hm))),
              hmf⟩
        · intro _
          rfl
    · -- no final yet: deliver the batch and keep watching
      have hfD' : (channelMessages D domain channel).any
          (fun m => m.final) = false := Bool.eq_false_iff.mpr hfD
      have hnfD : ∀ m ∈ channelMessages D domain channel, m.final = false := by
        intro m hm
        rcases Bool.eq_false_or_eq_true m.final with h | h
        · exact absurd (List.any_eq_true.mpr ⟨m, hm, h⟩)
            (by rw [hfD']; simp)
        · exact h
      rw [hfD', deliverBatch_cursor _ _ hnfD]
      have hub' : ∀ m ∈ channelMessages (L0 ++ D) domain channel,
          m.order ≤ lastOrderD (channelMessages D domain channel) s.max_seen := by
        intro m hm
        rw [hcm1] at hm
        obtain ⟨hbase, hmem⟩ :=
          lastOrderD_ub (channelMessages D domain channel) s.max_seen hqD hgtq
        rcases List.mem_append.mp hm with hm | hm
        · exact le_trans (hub m hm) hbase
        · exact hmem m hm
      have hrep' : lastOrderD (channelMessages D domain channel) s.max_seen =
          -1 ∨ ∃ m0 ∈ L0 ++ D,
            lastOrderD (channelMessages D domain channel) s.max_seen =
              m0.order := by
        rcases lastOrderD_mem (channelMessages D domain channel) s.max_seen
          with h | ⟨m, hm, h⟩
        · rw [h]
          rcases hrep with h' | ⟨m0, hm0, h'⟩
          · exact Or.inl h'
          · exact Or.inr ⟨m0, List.mem_append.mpr (Or.inl hm0), h'⟩
        · exact Or.inr ⟨m, List.mem_append.mpr
            (Or.inr (List.mem_filter.mp hm).1), h⟩
      have hnf' : ∀ m ∈ channelMessages (L0 ++ D) domain channel,
          m.final = false := by
        intro m hm
        rw [hcm1] at hm
        rcases List.mem_append.mp hm with hm | hm
        · exact hnf m hm
        · exact hnfD m hm
      obtain ⟨ihy, ihd⟩ := ih (L0 ++ D)
        ⟨lastOrderD (channelMessages D domain channel) s.max_seen, false⟩
        rfl hub' hrep' hnf' hchain' hwf'
      constructor
      · show (channelMessages L0 domain channel).map (fun m => m.message) ++
          (truncAtFinal (channelMessages D domain channel) ++ _) = _
        rw [truncAtFinal_of_noFinal _ hnfD, ← List.append_assoc]
        rw [hcm1, List.map_append] at ihy
        exact ihy
      · exact ihd

/-- C2: a messages() subscriber over any chain of log snapshots (one
fresh read per wake-up, however many wake-ups coalesced) yields exactly
the committed payloads of its channel in position order, each exactly
once, cut immediately after the first final message; a subscriber that
starts after the channel already has messages replays them all before
anything new; after a final message is delivered the generator has
returned and a wake-up performs no further read. -/
theorem c2_messages_subscriber :
    ∀ (domain channel : String) (logs : List (List ChannelMessage)),
      LogChain logs →
      ChanLogWF (lastSnapshot [] logs) →
      ((subRun domain channel logs initialSub).1 =
        truncAtFinal
          (channelMessages (lastSnapshot [] logs) domain channel)) ∧
      ((subRun domain channel logs initialSub).2.done = true ↔
        (channelMessages (lastSnapshot [] logs) domain channel).any
          (fun m => m.final) = true) ∧
      (∀ (log : List ChannelMessage) (s : SubState), s.done = true →
        subStep log domain channel s = ([], s)) := by
  intro domain channel logs hchain hwf
  have hch : LogChain ([] :: logs) := by
    cases logs with
    | nil => trivial
    | cons l rest =>
      rw [LogChain]
      exact ⟨⟨l, rfl⟩, hchain⟩
  obtain ⟨h1, h2⟩ := subRun_correct domain channel logs [] initialSub rfl
    (fun m hm => absurd hm (List.not_mem_nil m)) (Or.inl rfl)
    (fun m hm => absurd hm (List.not_mem_nil m)) hch hwf
  refine ⟨?_, h2, ?_⟩
  · rw [show channelMessages [] domain channel = [] from rfl,
      List.map_nil, List.nil_append] at h1
    exact h1
  · intro log s hs
    rw [subStep, if_pos hs]

/-- Witness for C2 at the concrete channel-fan-out scenario: a first
snapshot with one message and a second snapshot adding the final
message. -/
theorem c2_messages_subscriber_witness :
    ((subRun "d1" "c1"
        [[⟨"d1", "c1", "m1", Value.null, false, 0⟩],
          [⟨"d1", "c1", "m1", Value.null, false, 0⟩,
            ⟨"d1", "c1", "m2", Value.str "the end!", true, 1⟩]]
        initialSub).1 =
      truncAtFinal
        (channelMessages
          (lastSnapshot []
            [[⟨"d1", "c1", "m1", Value.null, false, 0⟩],
              [⟨"d1", "c1", "m1", Value.null, false, 0⟩,
                ⟨"d1", "c1", "m2", Value.str "the end!", true, 1⟩]])
          "d1" "c1")) ∧
    ((subRun "d1" "c1"
        [[⟨"d1", "c1", "m1", Value.null, false, 0⟩],
          [⟨"d1", "c1", "m1", Value.null, false, 0⟩,
            ⟨"d1", "c1", "m2", Value.str "the end!", true, 1⟩]]
        initialSub).2.done = true ↔
      ((channelMessages
          (lastSnapshot []
            [[⟨"d1", "c1", "m1", Value.null, false, 0⟩],
              [⟨"d1", "c1", "m1", Value.null, false, 0⟩,
                ⟨"d1", "c1", "m2", Value.str "the end!", true, 1⟩]])
          "d1" "c1").any (fun m => m.final)) = true) ∧
    (∀ (log : List ChannelMessage) (s : SubState), s.done = true →
      subStep log "d1" "c1" s = ([], s)) :=
  c2_messages_subscriber "d1" "c1"
    [[⟨"d1", "c1", "m1", Value.null, false, 0⟩],
      [⟨"d1", "c1", "m1", Value.null, false, 0⟩,
        ⟨"d1", "c1", "m2", Value.str "the end!", true, 1⟩]]
    ⟨⟨[⟨"d1", "c1", "m2", Value.str "the end!", true, 1⟩], rfl⟩, trivial⟩
    (by constructor
        · decide
        · decide)

theorem retry_txn_find_eq {W E : Type} (block : Nat → BlockRun W E)
    (outcome : Nat → CommitOutcome) (n : Nat)
    (h : ∃ k, stopsAt block outcome k = true)
    (hstop : stopsAt block outcome n = true)
    (hno : ∀ m, m < n → ¬ stopsAt block outcome m = true) :
    Nat.find h = n := by
  rw [Nat.find_eq_iff]
  exact ⟨hstop, hno⟩

/-- C10: check_and_set returns true and changes nothing when the flag
row exists, otherwise inserts it and returns false; keys are fully
independent (a call never touches any other key, and its result depends
only on its own flag); and of two serialized callers on the same unset
key the first observes false and the second observes true. -/
theorem c10_already_check_and_set :
    ∀ (db : AStore) (domain item : String),
      (db (domain, item) = true → already_body db domain item = (true, db)) ∧
      (db (domain, item) = false →
        (already_body db domain item).1 = false ∧
        (already_body db domain item).2 (domain, item) = true) ∧
      (∀ k, k ≠ (domain, item) → (already_body db domain item).2 k = db k) ∧
      (db (domain, item) = false →
        (already_body db domain item).1 = false ∧
        (already_body ((already_body db domain item).2) domain item).1 =
          true) ∧
      (∀ (outcome : Nat → CommitOutcome)
        (h : ∃ k, stopsAt (already_block db domain item) outcome k = true),
        outcome 0 = .ok →
        already_check_and_set db domain item outcome h =
          .committed (already_body db domain item) 1) := by
  intro db domain item
  refine ⟨?_, ?_, ?_, ?_, ?_⟩
  · intro hset
    rw [already_body, if_pos hset]
  · intro hunset
    rw [already_body, if_neg (by rw [hunset]; simp)]
    exact ⟨rfl, by simp⟩
  · intro k hk
    rw [already_body]
    by_cases hset : db (domain, item) = true
    · rw [if_pos hset]
    · rw [if_neg hset]
      show (if k = (domain, item) then true else db k) = db k
      rw [if_neg hk]
  · intro hunset
    rw [already_body, if_neg (by rw [hunset]; simp)]
    refine ⟨rfl, ?_⟩
    show (already_body (fun k =>
      if k = (domain, item) then true else db k) domain item).1 = true
    rw [already_body, if_pos (by simp)]
  · intro outcome h hok
    have hfind : Nat.find h = 0 :=
      retry_txn_find_eq _ _ 0 h
        (by rw [stopsAt, already_block]; simp [hok])
        (fun m hm => absurd hm (by omega))
    rw [already_check_and_set, retry_txn]
    simp only [hfind, hok, already_block]

/-- Witness for C10 at the flag-isolation scenario: check_and_set on
an empty store returns false then true, and an independent domain is
unaffected. -/
theorem c10_already_check_and_set_witness :
    ((already_body emptyAStore "d1" "i1").1 = false ∧
      (already_body ((already_body emptyAStore "d1" "i1").2) "d1" "i1").1 =
        true) ∧
    (already_body emptyAStore "d1" "i1").2 ("d2", "i1") =
      emptyAStore ("d2", "i1") ∧
    already_check_and_set emptyAStore "d1" "i1" (fun _ => CommitOutcome.ok)
      ⟨0, by decide⟩ =
      .committed (already_body emptyAStore "d1" "i1") 1 :=
  ⟨(c10_already_check_and_set emptyAStore "d1" "i1").2.2.2.1 rfl,
    (c10_already_check_and_set emptyAStore "d1" "i1").2.2.1 ("d2", "i1")
      (by decide),
    (c10_already_check_and_set emptyAStore "d1" "i1").2.2.2.2
      (fun _ => CommitOutcome.ok) ⟨0, by decide⟩ rfl⟩

/-- C6 (amended): already_check_and_set runs inside the retry engine,
so any number of serialization conflicts is retried transparently and
never surfaced; send_message and PDict.update run in a single
open_session scope, execute their block exactly once, and surface a
commit-time serialization failure to the caller instead of retrying. -/
theorem c6_retry_engine_coverage :
    (∀ (db : AStore) (domain item : String) (outcome : Nat → CommitOutcome)
      (h : ∃ k, stopsAt (already_block db domain item) outcome k = true)
      (n : Nat),
      (∀ k, k < n → outcome k = .serializationFailure) → outcome n = .ok →
      already_check_and_set db domain item outcome h =
        .committed (already_body db domain item) (n + 1)) ∧
    (∀ (db : ChanDB) (domain channel message_id : String) (message : Value)
      (final : Bool) (db' : ChanDB),
      send_message db domain channel message_id message final = .ok db' →
      send_message_txn db domain channel message_id message final
        .serializationFailure = .commitError 1) ∧
    (∀ (store : PStore) (domain item : String) (frag : Value) (s : PStore),
      PDict.update store domain item frag = .ok s →
      update_txn store domain item frag .serializationFailure =
        .commitError 1) := by
  refine ⟨?_, ?_, ?_⟩
  · intro db domain item outcome h n hser hok
    have hfind : Nat.find h = n :=
      retry_txn_find_eq _ _ n h
        (by rw [stopsAt, already_block]; simp [hok])
        (fun m hm => by rw [stopsAt, already_block]; simp [hser m hm])
    rw [already_check_and_set, retry_txn]
    simp only [hfind, hok, already_block]
  · intro db domain channel message_id message final db' hok
    rw [send_message_txn]
    simp only [hok]
    rfl
  · intro store domain item frag s hok
    rw [update_txn]
    simp only [hok]
    rfl

/-- Witness for C6: one conflicted commit then a success on
check_and_set, and a successful send_message whose commit reports a
serialization failure that reaches the caller. -/
theorem c6_retry_engine_coverage_witness :
    already_check_and_set emptyAStore "d1" "i1"
      (fun k => if k = 0 then CommitOutcome.serializationFailure else .ok)
      ⟨1, by decide⟩ =
      .committed (already_body emptyAStore "d1" "i1") 2 ∧
    send_message_txn emptyChanDB "d1" "c1" "m1" Value.null false
      .serializationFailure = .commitError 1 := by
  constructor
  · exact c6_retry_engine_coverage.1 emptyAStore "d1" "i1" _ ⟨1, by decide⟩ 1
      (fun k hk => by
        have hk0 : k = 0 := by omega
        subst hk0
        rfl) rfl
  · exact c6_retry_engine_coverage.2.1 emptyChanDB "d1" "c1" "m1" Value.null
      false ⟨[⟨"d1", "c1", "m1", Value.null, false, 0⟩], 1⟩ (by decide)

/-- Counterexample to C6 as stated: send_message does not execute
inside the transactional retry engine — a transient serialization
failure at commit is surfaced to the caller as a database error after
a single attempt instead of being retried. -/
theorem c6_send_message_serialization_surfaced :
    send_message_txn emptyChanDB "d" "c" "m" Value.null false
      .serializationFailure = .commitError 1 ∧
    update_txn emptyPStore "d" "i" (Value.obj .nil)
      .serializationFailure = .commitError 1 := by
  constructor
  · rfl
  · rfl

theorem pulseN_count (p : Pulse) (n : Nat) :
    (p.pulseN n).count = p.count + n := by
  induction n with
  | zero => rw [Pulse.pulseN]; simp
  | succ n ih =>
    rw [Pulse.pulseN, Pulse.pulse, ih]
    push_cast
    ring

/-- C9: a Pulse counter is nonnegative, so a new subscriber always
receives one tick immediately, before any pulse() call; a subscriber in
sync with the counter receives no tick until pulse() is called; and for
every N at least 1, N pulse() calls issued while the subscriber is not
checking yield exactly one subsequent tick — the first check after them
ticks and resynchronizes, and a further check without new pulses does
not tick. -/
theorem c9_pulse_coalescing :
    (∀ p : Pulse, 0 ≤ p.count → subCheck p PulseSub.init = (true, ⟨p.count⟩)) ∧
    (∀ (p : Pulse) (s : PulseSub), s.max_seen = p.count →
      (subCheck p s).1 = false) ∧
    (∀ (p : Pulse) (s : PulseSub), s.max_seen = p.count → ∀ N : Nat, 1 ≤ N →
      subCheck (p.pulseN N) s = (true, ⟨(p.pulseN N).count⟩) ∧
      (subCheck (p.pulseN N) (subCheck (p.pulseN N) s).2).1 = false) := by
  refine ⟨?_, ?_, ?_⟩
  · intro p hp
    rw [subCheck, if_pos]
    show (-1 : Int) < p.count
    omega
  · intro p s hsync
    rw [subCheck, if_neg (by rw [hsync]; omega)]
  · intro p s hsync N hN
    have hcount : (p.pulseN N).count = p.count + N := pulseN_count p N
    have htick : subCheck (p.pulseN N) s = (true, ⟨(p.pulseN N).count⟩) := by
      rw [subCheck, if_pos]
      rw [hsync, hcount]
      have : (1 : Int) ≤ (N : Int) := by exact_mod_cast hN
      omega
    refine ⟨htick, ?_⟩
    rw [htick]
    rw [subCheck, if_neg (by show ¬ (p.pulseN N).count < (p.pulseN N).count; omega)]

/-- Witness for C9: a fresh subscriber ticks immediately; three
coalesced pulses produce exactly one subsequent tick and then
silence. -/
theorem c9_pulse_coalescing_witness :
    subCheck Pulse.init PulseSub.init = (true, ⟨Pulse.init.count⟩) ∧
    (subCheck (Pulse.init.pulseN 3) ⟨0⟩ =
      (true, ⟨(Pulse.init.pulseN 3).count⟩) ∧
      (subCheck (Pulse.init.pulseN 3)
        (subCheck (Pulse.init.pulseN 3) ⟨0⟩).2).1 = false) :=
  ⟨c9_pulse_coalescing.1 Pulse.init (by decide),
    c9_pulse_coalescing.2.2 Pulse.init ⟨0⟩ rfl 3 (by decide)⟩
